import Mathlib

/-
  Verification of the entropy-cost / context-selection / self-guided
  restoration core of the av1 excerpt.

  Shallow embedding conventions:
  * pixel planes and integral images are total functions `ℕ → ℕ → ℤ`;
  * 32-bit SIMD lanes are modelled as `ℤ`, with an explicit `% 2^32`
    exactly at the operations where the C code can wrap (the `z` index
    computation and the `b` numerator of `calc_ab`); all other lane values
    stay within `int32` range for the inputs the theorems quantify over;
  * logical right shifts on non-negative lane values and arithmetic right
    shifts are both `/ 2^k` (Lean's `Int` division rounds toward `-∞`,
    which is exactly `srai`, and agrees with `srl` on non-negative values);
  * fallible or width-dependent reads are made explicit (e.g. the wide
    `uint16/32/64` loads of `get_entropy_context` read an explicit number
    of bytes).
-/

/-! ### Generic finite sums -/

/-- `sumTo f n = f 0 + f 1 + ... + f (n - 1)`. -/
def sumTo (f : ℕ → ℤ) : ℕ → ℤ
  | 0 => 0
  | n + 1 => sumTo f n + f n

theorem sumTo_add (f : ℕ → ℤ) (a b : ℕ) :
    sumTo f (a + b) = sumTo f a + sumTo (fun t => f (a + t)) b := by
  induction b with
  | zero => simp [sumTo]
  | succ b ih =>
      have h : a + (b + 1) = (a + b) + 1 := by omega
      rw [h]
      simp only [sumTo, ih]
      ring

theorem sumTo_sub (f g : ℕ → ℤ) (n : ℕ) :
    sumTo (fun t => f t - g t) n = sumTo f n - sumTo g n := by
  induction n with
  | zero => simp [sumTo]
  | succ n ih => simp only [sumTo, ih]; ring

theorem sumTo_congr {f g : ℕ → ℤ} (n : ℕ) (h : ∀ t, t < n → f t = g t) :
    sumTo f n = sumTo g n := by
  induction n with
  | zero => rfl
  | succ n ih =>
      simp only [sumTo]
      rw [ih (fun t ht => h t (by omega)), h n (by omega)]

theorem sumTo_const (c : ℤ) (n : ℕ) : sumTo (fun _ => c) n = n * c := by
  induction n with
  | zero => simp [sumTo]
  | succ n ih => simp only [sumTo, ih]; push_cast; ring

theorem sumTo_nonneg {f : ℕ → ℤ} (n : ℕ) (h : ∀ t, t < n → 0 ≤ f t) :
    0 ≤ sumTo f n := by
  induction n with
  | zero => simp [sumTo]
  | succ n ih =>
      simp only [sumTo]
      have h1 := ih (fun t ht => h t (by omega))
      have h2 := h n (by omega)
      omega

theorem sumTo_le {f : ℕ → ℤ} {M : ℤ} (n : ℕ) (h : ∀ t, t < n → f t ≤ M) :
    sumTo f n ≤ n * M := by
  induction n with
  | zero => simp [sumTo]
  | succ n ih =>
      simp only [sumTo]
      have h1 := ih (fun t ht => h t (by omega))
      have h2 := h n (by omega)
      push_cast
      nlinarith

/-! ### Integral images (src/av1/common/x86/selfguided_avx2.c)

`integral_images` / `integral_images_highbd` write a zero top row and a zero
left column, and fill each later row in blocks of 8 lanes: the block value is
`scan_32` of the 8 source samples, plus the row above, plus the replicated
scalar `ldiff = H - D` (the output sample immediately to the left of the
block minus the sample above it).  Both functions implement the same
recurrence; they differ only in how wide the source samples are, so one
embedding over `ℤ` samples covers both (`B` sums samples, `A` sums their
squares, i.e. `intImg` applied to the pointwise-squared plane).  The AVX2
additions are 32-bit; `+`/`-` commute with reduction mod `2^32`, so the
recurrence is modelled over `ℤ`. -/

/-- Value of a freshly computed integral-image row at block-start column
`8*k` (the column the `ldiff` carry of `integral_images` refers to).
`prev` is the already-computed row above, `srcRow` the source row. -/
def intImgRowBlock (prev srcRow : ℕ → ℤ) : ℕ → ℤ
  | 0 => 0
  | k + 1 =>
      sumTo (fun t => srcRow (8 * k + t)) 8 + prev (8 * (k + 1))
        + intImgRowBlock prev srcRow k - prev (8 * k)

/-- A full freshly computed integral-image row: column `c + 1` holds the
in-block scan (`scan_32`) of the source samples of its 8-lane block, plus
the sample above (`above`), plus the carried `ldiff` (value of this row at
the block-start column minus the value of `prev` there).  Column 0 is the
explicit zero left column. -/
def intImgRow (prev srcRow : ℕ → ℤ) : ℕ → ℤ
  | 0 => 0
  | c + 1 =>
      sumTo (fun t => srcRow (8 * (c / 8) + t)) (c % 8 + 1) + prev (c + 1)
        + intImgRowBlock prev srcRow (c / 8) - prev (8 * (c / 8))

/-- The integral image of `src`: row 0 is the `memset` zero top row, and row
`i + 1` is computed from row `i` and source row `i` exactly as the inner
loop of `integral_images` does. -/
def intImg (src : ℕ → ℕ → ℤ) : ℕ → ℕ → ℤ
  | 0 => fun _ => 0
  | i + 1 => intImgRow (intImg src i) (src i)

theorem intImg_zero_col (src : ℕ → ℕ → ℤ) (i : ℕ) : intImg src i 0 = 0 := by
  cases i <;> rfl

theorem intImgRowBlock_eq (prev srcRow : ℕ → ℤ) (h0 : prev 0 = 0) (k : ℕ) :
    intImgRowBlock prev srcRow k = prev (8 * k) + sumTo srcRow (8 * k) := by
  induction k with
  | zero => simp [intImgRowBlock, sumTo, h0]
  | succ k ih =>
      rw [intImgRowBlock, ih]
      have h : 8 * (k + 1) = 8 * k + 8 := by ring
      rw [h, sumTo_add srcRow (8 * k) 8]
      ring

theorem intImgRow_eq (prev srcRow : ℕ → ℤ) (h0 : prev 0 = 0) (c : ℕ) :
    intImgRow prev srcRow c = prev c + sumTo srcRow c := by
  cases c with
  | zero => simp [intImgRow, sumTo, h0]
  | succ c =>
      rw [intImgRow, intImgRowBlock_eq prev srcRow h0]
      have hc : 8 * (c / 8) + (c % 8 + 1) = c + 1 := by omega
      have hs := sumTo_add srcRow (8 * (c / 8)) (c % 8 + 1)
      rw [hc] at hs
      rw [hs]
      ring

/-- Mathematical prefix sum: sum of all samples with coordinates `< (i, c)`. -/
def prefSum (src : ℕ → ℕ → ℤ) (i c : ℕ) : ℤ :=
  sumTo (fun row => sumTo (src row) c) i

theorem intImg_eq_prefSum (src : ℕ → ℕ → ℤ) (i c : ℕ) :
    intImg src i c = prefSum src i c := by
  induction i with
  | zero => simp [intImg, prefSum, sumTo]
  | succ i ih =>
      show intImgRow (intImg src i) (src i) c = _
      rw [intImgRow_eq (intImg src i) (src i) (intImg_zero_col src i) c, ih]
      simp only [prefSum, sumTo]

/-- Embedding of `boxsum_from_ii`: four corner loads around a centre
`(y, x)` of the integral image at box radius `r`, combined as
`(br - bl) - (tr - tl)`. -/
def boxsumFromII (ii : ℕ → ℕ → ℤ) (y x r : ℕ) : ℤ :=
  let tl := ii (y - (r + 1)) (x - (r + 1))
  let tr := ii (y - (r + 1)) (x + r)
  let bl := ii (y + r) (x - (r + 1))
  let br := ii (y + r) (x + r)
  let u := tr - tl
  let v := br - bl
  v - u

/-- Brute-force sum over the `(2r+1) x (2r+1)` window of source samples the
box query at integral-image centre `(y, x)` covers (source row `s`
contributes to integral-image rows `> s`, hence the `- (r + 1)` offset). -/
def windowSum (src : ℕ → ℕ → ℤ) (y x r : ℕ) : ℤ :=
  sumTo (fun dy =>
    sumTo (fun dx => src (y - (r + 1) + dy) (x - (r + 1) + dx)) (2 * r + 1))
    (2 * r + 1)

theorem boxsumFromII_intImg (src : ℕ → ℕ → ℤ) (y x r : ℕ)
    (hy : r + 1 ≤ y) (hx : r + 1 ≤ x) :
    boxsumFromII (intImg src) y x r = windowSum src y x r := by
  obtain ⟨a, rfl⟩ : ∃ a, y = (r + 1) + a := ⟨y - (r + 1), by omega⟩
  obtain ⟨b, rfl⟩ : ∃ b, x = (r + 1) + b := ⟨x - (r + 1), by omega⟩
  have e1 : (r + 1) + a - (r + 1) = a := by omega
  have e2 : (r + 1) + b - (r + 1) = b := by omega
  have e3 : (r + 1) + a + r = a + (2 * r + 1) := by omega
  have e4 : (r + 1) + b + r = b + (2 * r + 1) := by omega
  simp only [boxsumFromII, windowSum, e1, e2, e3, e4, intImg_eq_prefSum,
    prefSum]
  have hrow : ∀ ρ : ℕ, sumTo (src ρ) (b + (2 * r + 1)) - sumTo (src ρ) b =
      sumTo (fun dx => src ρ (b + dx)) (2 * r + 1) := by
    intro ρ
    rw [sumTo_add (src ρ) b (2 * r + 1)]
    ring
  rw [sumTo_add (fun row => sumTo (src row) (b + (2 * r + 1))) a (2 * r + 1),
    sumTo_add (fun row => sumTo (src row) b) a (2 * r + 1)]
  have hcomb :
      sumTo (fun t => sumTo (src (a + t)) (b + (2 * r + 1))) (2 * r + 1)
        - sumTo (fun t => sumTo (src (a + t)) b) (2 * r + 1)
      = sumTo (fun dy => sumTo (fun dx => src (a + dy) (b + dx)) (2 * r + 1))
          (2 * r + 1) := by
    rw [← sumTo_sub]
    exact sumTo_congr (2 * r + 1) (fun t _ => hrow (a + t))
  linarith [hcomb]

/-! ### Self-guided restoration constants and tables

The constants and lookup tables below live in `av1/common/restoration.{h,c}`,
which is outside this excerpt; `selfguided_avx2.c` only uses them.  They are
modelled from the spec (sections 4.4, 4.5, 9 and the source comments that
quote them, e.g. "one_over_n[n-1] is 2^12/n"). -/

/-- Modelled from the spec: `SGRPROJ_BORDER_VERT` of av1/common/restoration.h
(vertical padding border of the self-guided filter). -/
def SGRPROJ_BORDER_VERT : ℕ := 3

/-- Modelled from the spec: `SGRPROJ_BORDER_HORZ` of av1/common/restoration.h
(horizontal padding border of the self-guided filter). -/
def SGRPROJ_BORDER_HORZ : ℕ := 3

/-- Modelled from the spec: `SGRPROJ_SGR_BITS` (the blend weight `a` is a
`SGRPROJ_SGR = 2^8` fixed-point fraction). -/
def SGRPROJ_SGR_BITS : ℕ := 8

/-- Modelled from the spec: `SGRPROJ_SGR = 1 << SGRPROJ_SGR_BITS`. -/
def SGRPROJ_SGR : ℕ := 2 ^ SGRPROJ_SGR_BITS

/-- Modelled from the spec: `SGRPROJ_RST_BITS` (restoration-domain upshift). -/
def SGRPROJ_RST_BITS : ℕ := 4

/-- Modelled from the spec: `SGRPROJ_PRJ_BITS` (projection mixing shift). -/
def SGRPROJ_PRJ_BITS : ℕ := 7

/-- Modelled from the spec: `SGRPROJ_MTABLE_BITS` (shift of the `z` index
quantisation). -/
def SGRPROJ_MTABLE_BITS : ℕ := 20

/-- Modelled from the spec: `SGRPROJ_RECIP_BITS` (shift of the reciprocal
multiply in the `b` computation). -/
def SGRPROJ_RECIP_BITS : ℕ := 12

/-- Modelled from the spec: signalled projection coefficient ranges
`SGRPROJ_PRJ_MIN0 = -96`, `SGRPROJ_PRJ_MAX0 = 31`. -/
def SGRPROJ_PRJ_MIN0 : ℤ := -96

def SGRPROJ_PRJ_MAX0 : ℤ := 31

/-- Modelled from the spec: `SGRPROJ_PRJ_MIN1 = -32`, `SGRPROJ_PRJ_MAX1 = 95`. -/
def SGRPROJ_PRJ_MIN1 : ℤ := -32

def SGRPROJ_PRJ_MAX1 : ℤ := 95

/-- Modelled from the spec: the 256-entry reciprocal table `x_by_xplus1` of
av1/common/restoration.c, `x_by_xplus1[z] = round(2^8 * z / (z + 1))`
(no argument in `[0, 255]` lands on an exact half, so the rounding
convention is immaterial). -/
def xByXplus1 (z : ℤ) : ℤ := (2 * 256 * z + (z + 1)) / (2 * (z + 1))

/-- Modelled from the spec: the reciprocal table `one_by_x` of
av1/common/restoration.c; the source comment in `calc_ab` pins it down as
"one_over_n[n-1] is 2^12/n" (rounded to nearest). -/
def oneByX (n : ℕ) : ℕ := (2 ^ 12 + n / 2) / n

/-- Modelled from the spec: the multiplier table `sgrproj_mtable` of
av1/common/restoration.c, keyed by (strength `e`, window size `n`):
`round(2^SGRPROJ_MTABLE_BITS / (n^2 * e))`. -/
def sgrprojMtable (e n : ℕ) : ℕ := (2 ^ 20 + n * n * e / 2) / (n * n * e)

/-- Modelled from the spec: one entry of the `sgr_params` table of
av1/common/restoration.c — a radius/strength pair for each of the two passes
of the self-guided filter. -/
structure SgrParams where
  r1 : ℕ
  e1 : ℕ
  r2 : ℕ
  e2 : ℕ

/-- Modelled from the spec: the `sgr_params` table (radius/strength
parameter sets selectable from the bitstream); every entry uses radius 2 for
the first pass and radius 1 for the second, consistent with the source
assertion `r + 1 <= AOMMIN(SGRPROJ_BORDER_VERT, SGRPROJ_BORDER_HORZ)`. -/
def sgr_params : List SgrParams :=
  [⟨2, 12, 1, 4⟩, ⟨2, 15, 1, 6⟩, ⟨2, 18, 1, 9⟩, ⟨2, 21, 1, 12⟩,
   ⟨2, 24, 1, 16⟩, ⟨2, 29, 1, 21⟩, ⟨2, 36, 1, 27⟩, ⟨2, 45, 1, 35⟩,
   ⟨2, 56, 1, 44⟩, ⟨2, 68, 1, 54⟩, ⟨2, 83, 1, 66⟩, ⟨2, 100, 1, 82⟩,
   ⟨2, 120, 1, 102⟩, ⟨2, 142, 1, 130⟩, ⟨2, 168, 1, 165⟩, ⟨2, 208, 1, 245⟩]

/-- Modelled from the spec: `decode_xq` of av1/common/restoration.c — the
first mixing coefficient is signalled directly, the second is the
complement `(1 << SGRPROJ_PRJ_BITS) - xq0 - xqd1`. -/
def decode_xq (xqd0 xqd1 : ℤ) : ℤ × ℤ :=
  (xqd0, (2 ^ SGRPROJ_PRJ_BITS : ℤ) - xqd0 - xqd1)

/-! ### calc_ab / cross_sum / final_filter / apply (selfguided_avx2.c) -/

/-- `round_for_shift(shift) = (1 << shift) >> 1`. -/
def roundForShift (shift : ℕ) : ℤ := (2 ^ shift : ℤ) / 2

/-- Embedding of `compute_p` (one 32-bit lane).  For bit depth above 8 the
box sums are rounded and shifted down before squaring; `madd` squaring is
exact because the shifted `b` is below `2^14` for every valid input, and the
`max` keeps `an - bb` non-negative.  For bit depth 8 it is the plain
variance numerator `sum2 * n - sum1^2`. -/
def computeP (sum1 sum2 : ℤ) (bit_depth n : ℕ) : ℤ :=
  if 8 < bit_depth then
    let a := (sum2 + roundForShift (2 * (bit_depth - 8))) / 2 ^ (2 * (bit_depth - 8))
    let b := (sum1 + roundForShift (bit_depth - 8)) / 2 ^ (bit_depth - 8)
    let bb := b * b
    let an := max (a * n) bb
    an - bb
  else
    sum2 * n - sum1 * sum1

/-- Embedding of the `z` computation in `calc_ab`: 32-bit `mullo` of `p` and
`s` followed by a 32-bit add of the rounding constant (hence the explicit
`% 2^32`), a logical right shift by `SGRPROJ_MTABLE_BITS`, and a signed
`min` with 255. -/
def zIndex (p s : ℤ) : ℤ :=
  min (((p * s + roundForShift SGRPROJ_MTABLE_BITS) % 2 ^ 32) / 2 ^ SGRPROJ_MTABLE_BITS)
    255

/-- Embedding of the `a` output of `calc_ab` (one lane): gather from
`x_by_xplus1` at index `z`. -/
def calcA (sum1 sum2 : ℤ) (bit_depth n eps : ℕ) : ℤ :=
  xByXplus1 (zIndex (computeP sum1 sum2 bit_depth n) (sgrprojMtable eps n))

/-- Embedding of the `b` output of `calc_ab` (one lane):
`a_complement = SGRPROJ_SGR - a`, exact 16-bit `madd` with `one_over_n`,
32-bit `mullo` by `sum1` and 32-bit add of the rounding constant (hence the
explicit `% 2^32`), then a logical right shift by `SGRPROJ_RECIP_BITS`. -/
def calcB (sum1 sum2 : ℤ) (bit_depth n eps : ℕ) : ℤ :=
  let a_complement : ℤ := (SGRPROJ_SGR : ℤ) - calcA sum1 sum2 bit_depth n eps
  let a_comp_over_n : ℤ := a_complement * (oneByX n : ℤ)
  ((a_comp_over_n * sum1 + roundForShift SGRPROJ_RECIP_BITS) % 2 ^ 32)
    / 2 ^ SGRPROJ_RECIP_BITS

/-- Embedding of `cross_sum` (one lane), in the source's optimised form
`((fours + threes) << 2) - threes` where `fours` is the centre plus the four
edge-adjacent taps and `threes` the four corners. -/
def crossSum (buf : ℕ → ℕ → ℤ) (y x : ℕ) : ℤ :=
  let xtl := buf (y - 1) (x - 1)
  let xt := buf (y - 1) x
  let xtr := buf (y - 1) (x + 1)
  let xl := buf y (x - 1)
  let xc := buf y x
  let xr := buf y (x + 1)
  let xbl := buf (y + 1) (x - 1)
  let xb := buf (y + 1) x
  let xbr := buf (y + 1) (x + 1)
  let fours := xl + (xt + (xr + (xb + xc)))
  let threes := xtl + (xtr + (xbr + xbl))
  (fours + threes) * 2 ^ 2 - threes

/-- Pointwise squared plane (the samples `integral_images` squares with an
exact 16-bit `madd`, valid for samples below `2^15`). -/
def sqPlane (src : ℕ → ℕ → ℤ) : ℕ → ℕ → ℤ := fun i c => src i c * src i c

/-- Box sum of samples (the `D` integral image) at buffer centre `(y, x)`.
The padded plane has its top-left at `(0, 0)`; the integral image has the
extra zero row/column, and logical position `(0, 0)` of the filtered region
is buffer position `(SGRPROJ_BORDER_VERT + 1, SGRPROJ_BORDER_HORZ + 1)`. -/
def sum1At (src : ℕ → ℕ → ℤ) (r y x : ℕ) : ℤ :=
  boxsumFromII (intImg src) y x r

/-- Box sum of squared samples (the `C` integral image). -/
def sum2At (src : ℕ → ℕ → ℤ) (r y x : ℕ) : ℤ :=
  boxsumFromII (intImg (sqPlane src)) y x r

/-- The `A` map written by `calc_ab`, as a function of buffer coordinates. -/
def aMap (src : ℕ → ℕ → ℤ) (bit_depth eps r : ℕ) : ℕ → ℕ → ℤ :=
  fun y x =>
    calcA (sum1At src r y x) (sum2At src r y x) bit_depth
      ((2 * r + 1) * (2 * r + 1)) eps

/-- The `B` map written by `calc_ab`, as a function of buffer coordinates. -/
def bMap (src : ℕ → ℕ → ℤ) (bit_depth eps r : ℕ) : ℕ → ℕ → ℤ :=
  fun y x =>
    calcB (sum1At src r y x) (sum2At src r y x) bit_depth
      ((2 * r + 1) * (2 * r + 1)) eps

/-- Embedding of one output lane of `final_filter`: cross sums of the `A`
and `B` maps around logical position `(i, j)` (buffer `(i + 4, j + 4)`),
exact `madd` with the source sample, rounding add and arithmetic shift by
`SGRPROJ_SGR_BITS + nb - SGRPROJ_RST_BITS` with `nb = 5`. -/
def finalFilterPx (src : ℕ → ℕ → ℤ) (bit_depth eps r : ℕ) (i j : ℕ) : ℤ :=
  let a := crossSum (aMap src bit_depth eps r) (i + 4) (j + 4)
  let b := crossSum (bMap src bit_depth eps r) (i + 4) (j + 4)
  let srcpx := src (i + 3) (j + 3)
  (a * srcpx + b + roundForShift (SGRPROJ_SGR_BITS + 5 - SGRPROJ_RST_BITS))
    / 2 ^ (SGRPROJ_SGR_BITS + 5 - SGRPROJ_RST_BITS)

/-- Embedding of the 8-bit store of `apply_selfguided_restoration_avx2`:
`packs_epi32` saturates each 32-bit lane to `[-2^15, 2^15)`, then
`packus_epi16` saturates to `[0, 255]`. -/
def pack8 (w : ℤ) : ℤ := max 0 (min (max (-32768) (min w 32767)) 255)

/-- Signed 16-bit reinterpretation of a value in `[0, 65535]`. -/
def toSigned16 (x : ℤ) : ℤ := if x < 32768 then x else x - 65536

/-- Embedding of the high-bit-depth store: `packus_epi32` saturates each
lane to `[0, 65535]`, then `min_epi16` takes the *signed* 16-bit minimum
with `(1 << bit_depth) - 1`; the stored halfword is the bit pattern of the
selected operand. -/
def packHighbd (w : ℤ) (bit_depth : ℕ) : ℤ :=
  let p := max 0 (min w 65535)
  let m := (2 ^ bit_depth : ℤ) - 1
  if toSigned16 p ≤ m then p else m

/-- Embedding of one output pixel of `apply_selfguided_restoration_avx2`
(via `av1_selfguided_restoration_avx2` for the two filter passes):
`src` is the padded plane, `(i, j)` the logical pixel. -/
def applySelfguidedPx (src : ℕ → ℕ → ℤ) (bit_depth : ℕ) (highbd : Bool)
    (eps : ℕ) (xqd0 xqd1 : ℤ) (i j : ℕ) : ℤ :=
  let ps := sgr_params.getD eps ⟨2, 12, 1, 4⟩
  let flt1 := finalFilterPx src bit_depth ps.e1 ps.r1 i j
  let flt2 := finalFilterPx src bit_depth ps.e2 ps.r2 i j
  let xq := decode_xq xqd0 xqd1
  let u := src (i + 3) (j + 3) * 2 ^ SGRPROJ_RST_BITS
  let f1 := flt1 - u
  let f2 := flt2 - u
  let v := xq.1 * f1 + xq.2 * f2 + u * 2 ^ SGRPROJ_PRJ_BITS
  let w := (v + roundForShift (SGRPROJ_PRJ_BITS + SGRPROJ_RST_BITS))
    / 2 ^ (SGRPROJ_PRJ_BITS + SGRPROJ_RST_BITS)
  if highbd then packHighbd w bit_depth else pack8 w

/-! ### Claims C1, C7, C10 -/

/-- **C1**: the integral images built by `integral_images` /
`integral_images_highbd` have a zero first row and column and satisfy
`I[y][x] = sum of all source samples with coordinates < (y, x)` (for the
squared-sample image instantiate `src` with the pointwise-squared plane),
and for every radius `r` with `r + 1 <= min(SGRPROJ_BORDER_VERT,
SGRPROJ_BORDER_HORZ)` and every in-range centre, the four-corner
differencing of `boxsum_from_ii` equals the brute-force sum over the
`(2r+1) x (2r+1)` window — exact integer equality. -/
theorem C1_integral_image_boxsum (src : ℕ → ℕ → ℤ) (y x r : ℕ)
    (_hr : r + 1 ≤ min SGRPROJ_BORDER_VERT SGRPROJ_BORDER_HORZ)
    (hy : r + 1 ≤ y) (hx : r + 1 ≤ x) :
    (∀ c, intImg src 0 c = 0) ∧ (∀ i, intImg src i 0 = 0) ∧
    (∀ i c, intImg src i c = prefSum src i c) ∧
    boxsumFromII (intImg src) y x r = windowSum src y x r :=
  ⟨fun _ => rfl, intImg_zero_col src, intImg_eq_prefSum src,
    boxsumFromII_intImg src y x r hy hx⟩

theorem C1_integral_image_boxsum_witness :
    boxsumFromII (intImg (fun i c => (i * 5 + c : ℤ))) 3 3 2 =
      windowSum (fun i c => (i * 5 + c : ℤ)) 3 3 2 :=
  (C1_integral_image_boxsum (fun i c => (i * 5 + c : ℤ)) 3 3 2 (by decide)
    (by decide) (by decide)).2.2.2

/-- The literal 9-tap weighted sum the spec describes for `cross_sum`:
corner weight 3, edge and centre weight 4.  `(y, x)` is the top-left tap of
the 3x3 neighbourhood. -/
def crossSumSpec (buf : ℕ → ℕ → ℤ) (y x : ℕ) : ℤ :=
  3 * buf y x + 4 * buf y (x + 1) + 3 * buf y (x + 2)
    + 4 * buf (y + 1) x + 4 * buf (y + 1) (x + 1) + 4 * buf (y + 1) (x + 2)
    + 3 * buf (y + 2) x + 4 * buf (y + 2) (x + 1) + 3 * buf (y + 2) (x + 2)

/-- **C7**: `cross_sum`'s optimised form `((fours + threes) << 2) - threes`
equals the literal 9-tap weighted sum (corner weight 3, all other positions
weight 4), and equivalently `4 * (sum of all 9) - (sum of corners)`. -/
theorem C7_cross_sum_equiv (buf : ℕ → ℕ → ℤ) (y x : ℕ) :
    crossSum buf (y + 1) (x + 1) = crossSumSpec buf y x ∧
    crossSumSpec buf y x =
      4 * (buf y x + buf y (x + 1) + buf y (x + 2)
        + buf (y + 1) x + buf (y + 1) (x + 1) + buf (y + 1) (x + 2)
        + buf (y + 2) x + buf (y + 2) (x + 1) + buf (y + 2) (x + 2))
      - (buf y x + buf y (x + 2) + buf (y + 2) x + buf (y + 2) (x + 2)) := by
  constructor
  · simp only [crossSum, crossSumSpec, Nat.add_sub_cancel]
    ring
  · simp only [crossSumSpec]
    ring

/-- **C10**: the gather index `z` used by `calc_ab` to read the 256-entry
table `x_by_xplus1` is in `[0, 255]` for *every* value of the variance
proxy `p` and multiplier `s`, including those for which the 32-bit product
`p * s` wraps: the shifted value is produced by a logical shift of a 32-bit
lane (hence in `[0, 4095]`), and the signed `min` with 255 clamps it. -/
theorem C10_z_index_in_bounds (p s : ℤ) :
    0 ≤ zIndex p s ∧ zIndex p s ≤ 255 := by
  constructor
  · apply le_min _ (by norm_num)
    apply Int.ediv_nonneg _ (by positivity)
    exact Int.emod_nonneg _ (by positivity)
  · exact min_le_right _ _

/-! ### Cost model (src/av1/encoder/cost.c)

`aom_cdf_prob` is `uint16_t`; stored CDF entries count *down* and
`AOM_ICDF` recovers the (increasing) inverse cumulative value.  The
constants and `av1_cost_symbol` live in aom_dsp/prob.h, aom_dsp/entcode.h
and av1/encoder/cost.h, which are outside this excerpt, and are modelled
from the spec; the 256-entry table `av1_prob_cost` is in the excerpt and is
transcribed literally. -/

/-- Modelled from the spec: `CDF_PROB_BITS = 15` (aom_dsp/prob.h). -/
def CDF_PROB_BITS : ℕ := 15

/-- Modelled from the spec: `CDF_PROB_TOP = 1 << CDF_PROB_BITS`. -/
def CDF_PROB_TOP : ℕ := 2 ^ CDF_PROB_BITS

/-- Modelled from the spec: the minimum-probability floor `EC_MIN_PROB = 4`
(aom_dsp/entcode.h), the spec's "minimum-probability floor". -/
def EC_MIN_PROB : ℕ := 4

/-- Modelled from the spec: `AV1_PROB_COST_SHIFT = 9` (av1/encoder/cost.h);
the in-excerpt table comment "round(-log2(i/256.) * (1 <<
AV1_PROB_COST_SHIFT))" together with the table values (512 at index 128)
pins this value. -/
def AV1_PROB_COST_SHIFT : ℕ := 9

/-- Modelled from the spec: `AOM_ICDF(x) = (32768U - (x))`, truncated to the
16-bit `aom_cdf_prob` it is stored in (argument below `2^16`). -/
def AOM_ICDF (x : ℕ) : ℕ := (32768 + 65536 - x) % 65536

/-- The table `av1_prob_cost` of src/av1/encoder/cost.c, transcribed:
`round(-log2(i/256.) * (1 << AV1_PROB_COST_SHIFT))` with a bogus entry at
index 0. -/
def av1_prob_cost : List ℕ :=
  [4096, 4096, 3584, 3284, 3072, 2907, 2772, 2659, 2560, 2473, 2395, 2325, 2260,
   2201, 2147, 2096, 2048, 2003, 1961, 1921, 1883, 1847, 1813, 1780, 1748, 1718,
   1689, 1661, 1635, 1609, 1584, 1559, 1536, 1513, 1491, 1470, 1449, 1429, 1409,
   1390, 1371, 1353, 1335, 1318, 1301, 1284, 1268, 1252, 1236, 1221, 1206, 1192,
   1177, 1163, 1149, 1136, 1123, 1110, 1097, 1084, 1072, 1059, 1047, 1036, 1024,
   1013, 1001, 990, 979, 968, 958, 947, 937, 927, 917, 907, 897, 887,
   878, 868, 859, 850, 841, 832, 823, 814, 806, 797, 789, 780, 772,
   764, 756, 748, 740, 732, 724, 717, 709, 702, 694, 687, 680, 673,
   665, 658, 651, 644, 637, 631, 624, 617, 611, 604, 598, 591, 585,
   578, 572, 566, 560, 554, 547, 541, 535, 530, 524, 518, 512, 506,
   501, 495, 489, 484, 478, 473, 467, 462, 456, 451, 446, 441, 435,
   430, 425, 420, 415, 410, 405, 400, 395, 390, 385, 380, 375, 371,
   366, 361, 356, 352, 347, 343, 338, 333, 329, 324, 320, 316, 311,
   307, 302, 298, 294, 289, 285, 281, 277, 273, 268, 264, 260, 256,
   252, 248, 244, 240, 236, 232, 228, 224, 220, 216, 212, 209, 205,
   201, 197, 194, 190, 186, 182, 179, 175, 171, 168, 164, 161, 157,
   153, 150, 146, 143, 139, 136, 132, 129, 125, 122, 119, 115, 112,
   109, 105, 102, 99, 95, 92, 89, 86, 82, 79, 76, 73, 70,
   66, 63, 60, 57, 54, 51, 48, 45, 42, 38, 35, 32, 29,
   26, 23, 20, 18, 15, 12, 9, 6, 3]

/-- Modelled from the spec: `get_prob(num, den)` of aom_dsp/prob.h —
`(num * 256 + den/2) / den`, clipped to `[1, 255]`. -/
def get_prob (num den : ℕ) : ℕ := min 255 (max 1 ((256 * num + den / 2) / den))

/-- Modelled from the spec: `av1_cost_symbol(p15)` of av1/encoder/cost.h —
normalise the 15-bit probability mass into `[2^14, 2^15)` (shift =
`CDF_PROB_BITS - 1 - get_msb(p15)`), index the `-log2` table with the
rounded 8-bit probability, and add `av1_cost_literal(shift)`.  Intended
domain: `1 ≤ p15 < CDF_PROB_TOP`. -/
def av1_cost_symbol (p15 : ℕ) : ℤ :=
  let shift := CDF_PROB_BITS - 1 - Nat.log2 p15
  let prob := get_prob (p15 * 2 ^ shift) CDF_PROB_TOP
  (av1_prob_cost.getD prob 0 : ℤ) + (2 ^ AV1_PROB_COST_SHIFT : ℤ) * shift

/-- The (EC_MIN_PROB-clamped) probability mass `av1_cost_tokens_from_cdf`
derives for symbol `i`: `AOM_ICDF(cdf[i]) - prev` with the previous inverse
cumulative value (zero for the first symbol), in 16-bit arithmetic, clamped
below by `EC_MIN_PROB`. -/
def clampedMass (cdf : ℕ → ℕ) (i : ℕ) : ℕ :=
  let prev := if i = 0 then 0 else AOM_ICDF (cdf (i - 1))
  let p15 := (AOM_ICDF (cdf i) + 65536 - prev) % 65536
  if p15 < EC_MIN_PROB then EC_MIN_PROB else p15

/-- The loop body of `av1_cost_tokens_from_cdf`: at state `(prev, i)` it
computes the clamped mass, emits the write `(tgt i, cost)` (where `tgt` is
the identity or the `inv_map` scatter), updates `prev` to
`AOM_ICDF(cdf[i])`, and stops after the write once `cdf[i]` equals
`AOM_ICDF(CDF_PROB_TOP)`.  `fuel` bounds the number of iterations so the
function is total; the termination theorem shows the result is
fuel-independent once `fuel` exceeds the sentinel index. -/
def costTokensLoop (cdf tgt : ℕ → ℕ) : ℕ → ℕ → ℕ → List (ℕ × ℤ)
  | _, _, 0 => []
  | prev, i, fuel + 1 =>
      let p15 := (AOM_ICDF (cdf i) + 65536 - prev) % 65536
      let p15c := if p15 < EC_MIN_PROB then EC_MIN_PROB else p15
      (tgt i, av1_cost_symbol p15c) ::
        (if cdf i = AOM_ICDF CDF_PROB_TOP then []
         else costTokensLoop cdf tgt (AOM_ICDF (cdf i)) (i + 1) fuel)

/-- Embedding of `av1_cost_tokens_from_cdf`: run the loop from
`prev_cdf = 0`, symbol 0.  The returned list is the sequence of writes
`(cost-array index, written cost)`. -/
def av1_cost_tokens_from_cdf (cdf tgt : ℕ → ℕ) (fuel : ℕ) : List (ℕ × ℤ) :=
  costTokensLoop cdf tgt 0 0 fuel

theorem CDF_PROB_TOP_eq : CDF_PROB_TOP = 32768 := rfl

theorem AOM_ICDF_top : AOM_ICDF CDF_PROB_TOP = 0 := rfl

theorem costTokensLoop_head (cdf tgt : ℕ → ℕ) (j fuel : ℕ) :
    costTokensLoop cdf tgt (if j = 0 then 0 else AOM_ICDF (cdf (j - 1))) j
        (fuel + 1)
      = (tgt j, av1_cost_symbol (clampedMass cdf j)) ::
        (if cdf j = AOM_ICDF CDF_PROB_TOP then []
         else costTokensLoop cdf tgt (AOM_ICDF (cdf j)) (j + 1) fuel) := rfl

theorem costTokensLoop_spec (cdf tgt : ℕ → ℕ) (k : ℕ)
    (hk : cdf k = 0) (hne : ∀ i, i < k → cdf i ≠ 0) :
    ∀ d j fuel, j + d = k → k + 1 - j ≤ fuel →
      costTokensLoop cdf tgt (if j = 0 then 0 else AOM_ICDF (cdf (j - 1))) j
          fuel
        = (List.range (d + 1)).map
            (fun t => (tgt (j + t), av1_cost_symbol (clampedMass cdf (j + t)))) := by
  intro d
  induction d with
  | zero =>
      intro j fuel hj hfuel
      have hjk : j = k := by omega
      subst hjk
      obtain ⟨f, rfl⟩ : ∃ f, fuel = f + 1 := ⟨fuel - 1, by omega⟩
      rw [costTokensLoop_head]
      rw [if_pos (by rw [hk, AOM_ICDF_top])]
      simp [List.range_succ]
  | succ d ih =>
      intro j fuel hj hfuel
      have hjk : j < k := by omega
      obtain ⟨f, rfl⟩ : ∃ f, fuel = f + 1 := ⟨fuel - 1, by omega⟩
      rw [costTokensLoop_head]
      rw [if_neg (by rw [AOM_ICDF_top]; exact hne j hjk)]
      have ihj := ih (j + 1) f (by omega) (by omega)
      rw [show (if j + 1 = 0 then 0 else AOM_ICDF (cdf (j + 1 - 1)))
            = AOM_ICDF (cdf j) by simp] at ihj
      have hmaps :
          List.map (fun t => (tgt (j + 1 + t),
              av1_cost_symbol (clampedMass cdf (j + 1 + t)))) (List.range (d + 1))
            = List.map ((fun t => (tgt (j + t),
                av1_cost_symbol (clampedMass cdf (j + t)))) ∘ Nat.succ)
                (List.range (d + 1)) := by
        refine List.map_congr_left ?_
        intro t ht
        simp only [Function.comp_apply]
        have harith : j + 1 + t = j + (t + 1) := by omega
        rw [harith]
      rw [ihj, hmaps, List.range_succ_eq_map (d + 1), List.map_cons,
        List.map_map]
      simp

/-- **C2**: for every CDF array whose inverse cumulative values reach the
sentinel `CDF_PROB_TOP` first at index `k`, `av1_cost_tokens_from_cdf`
terminates after processing exactly symbols `0..k` (the result is the same
for any loop bound of at least `k + 1` iterations), and for each symbol `i`
it writes at position `tgt i` (the identity, or `inv_map` when supplied)
the cost of the probability mass `AOM_ICDF(cdf[i]) - AOM_ICDF(cdf[i-1])`
(previous cumulative value zero for the first symbol), clamped below by
`EC_MIN_PROB` before the cost lookup. -/
theorem C2_cost_tokens_from_cdf (cdf tgt : ℕ → ℕ) (k fuel : ℕ)
    (hw : ∀ i, i ≤ k → cdf i < 65536)
    (hsent : AOM_ICDF (cdf k) = CDF_PROB_TOP)
    (hne : ∀ i, i < k → AOM_ICDF (cdf i) ≠ CDF_PROB_TOP)
    (hfuel : k + 1 ≤ fuel) :
    av1_cost_tokens_from_cdf cdf tgt fuel
      = (List.range (k + 1)).map
          (fun i => (tgt i, av1_cost_symbol (clampedMass cdf i))) ∧
    (av1_cost_tokens_from_cdf cdf tgt fuel).length = k + 1 := by
  have hk0 : cdf k = 0 := by
    have hwk := hw k le_rfl
    rw [CDF_PROB_TOP_eq] at hsent
    unfold AOM_ICDF at hsent
    omega
  have hne0 : ∀ i, i < k → cdf i ≠ 0 := by
    intro i hi hcontra
    exact hne i hi (by rw [hcontra]; rfl)
  have hmain := costTokensLoop_spec cdf tgt k hk0 hne0 k 0 fuel (by omega)
    (by omega)
  simp only [Nat.zero_add] at hmain
  have hmain2 : costTokensLoop cdf tgt 0 0 fuel
      = (List.range (k + 1)).map
          (fun t => (tgt t, av1_cost_symbol (clampedMass cdf t))) := hmain
  refine ⟨hmain2, ?_⟩
  show (costTokensLoop cdf tgt 0 0 fuel).length = k + 1
  rw [hmain2, List.length_map, List.length_range]

theorem C2_cost_tokens_from_cdf_witness :
    av1_cost_tokens_from_cdf (fun i => [24576, 16384, 8192, 0].getD i 0)
        (fun i => i) 10
      = (List.range 4).map
          (fun i => (i, av1_cost_symbol
            (clampedMass (fun i => [24576, 16384, 8192, 0].getD i 0) i))) :=
  (C2_cost_tokens_from_cdf (fun i => [24576, 16384, 8192, 0].getD i 0)
    (fun i => i) 3 10 (by decide) (by decide) (by decide) (by decide)).1

/-! ### Monotonicity of the modelled cost function (claim C3) -/

theorem anti_on_of_step (f : ℕ → ℕ) (lo hi : ℕ)
    (hstep : ∀ i, lo ≤ i → i < hi → f (i + 1) ≤ f i) :
    ∀ i j, lo ≤ i → i ≤ j → j ≤ hi → f j ≤ f i := by
  intro i j hlo hij hjhi
  induction j with
  | zero =>
      have h0 : i = 0 := by omega
      simp [h0]
  | succ j ih =>
      rcases Nat.lt_or_ge i (j + 1) with h | h
      · have h1 : f (j + 1) ≤ f j := hstep j (by omega) (by omega)
        have h2 : f j ≤ f i := ih (by omega) (by omega)
        omega
      · have h0 : i = j + 1 := by omega
        simp [h0]

set_option maxRecDepth 4000 in
theorem prob_cost_step : ∀ i, i < 255 → 128 ≤ i →
    av1_prob_cost.getD (i + 1) 0 ≤ av1_prob_cost.getD i 0 := by decide

set_option maxRecDepth 4000 in
theorem prob_cost_le_512 : ∀ i, i < 256 → 128 ≤ i →
    av1_prob_cost.getD i 0 ≤ 512 := by decide

set_option maxRecDepth 4000 in
theorem prob_cost_ge_3 : ∀ i, i < 256 → 128 ≤ i →
    3 ≤ av1_prob_cost.getD i 0 := by decide

theorem normalized_bounds {p : ℕ} (hp : 1 ≤ p) (hp2 : p ≤ 32767) :
    16384 ≤ p * 2 ^ (14 - Nat.log2 p) ∧ p * 2 ^ (14 - Nat.log2 p) < 32768 := by
  have h1 : 2 ^ Nat.log2 p ≤ p := Nat.log2_self_le (by omega)
  have h2 : p < 2 ^ (Nat.log2 p + 1) := Nat.lt_log2_self
  have hm14 : Nat.log2 p ≤ 14 := by
    by_contra h
    have hpow : (2 : ℕ) ^ 15 ≤ 2 ^ Nat.log2 p :=
      Nat.pow_le_pow_right (by norm_num) (by omega)
    have : (2 : ℕ) ^ 15 = 32768 := by norm_num
    omega
  constructor
  · calc (16384 : ℕ) = 2 ^ 14 := by norm_num
    _ = 2 ^ Nat.log2 p * 2 ^ (14 - Nat.log2 p) := by
        rw [← pow_add]
        congr 1
        omega
    _ ≤ p * 2 ^ (14 - Nat.log2 p) := Nat.mul_le_mul_right _ h1
  · calc p * 2 ^ (14 - Nat.log2 p)
        < 2 ^ (Nat.log2 p + 1) * 2 ^ (14 - Nat.log2 p) :=
          Nat.mul_lt_mul_of_lt_of_le h2 le_rfl (by positivity)
    _ = 2 ^ 15 := by
        rw [← pow_add]
        congr 1
        omega
    _ = 32768 := by norm_num

theorem get_prob_bounds {x : ℕ} (h1 : 16384 ≤ x) (h2 : x < 32768) :
    128 ≤ get_prob x CDF_PROB_TOP ∧ get_prob x CDF_PROB_TOP ≤ 255 := by
  have htop : CDF_PROB_TOP = 32768 := rfl
  unfold get_prob
  rw [htop]
  have hdiv : 128 ≤ (256 * x + 32768 / 2) / 32768 := by
    rw [Nat.le_div_iff_mul_le (by norm_num)]
    omega
  omega

theorem get_prob_mono {x y : ℕ} (h : x ≤ y) :
    get_prob x CDF_PROB_TOP ≤ get_prob y CDF_PROB_TOP := by
  unfold get_prob
  have hdiv : (256 * x + CDF_PROB_TOP / 2) / CDF_PROB_TOP
      ≤ (256 * y + CDF_PROB_TOP / 2) / CDF_PROB_TOP :=
    Nat.div_le_div_right (by omega)
  omega

theorem log2_le_log2 {p q : ℕ} (h : p ≤ q) : Nat.log2 p ≤ Nat.log2 q := by
  rw [Nat.log2_eq_log_two, Nat.log2_eq_log_two]
  exact Nat.log_mono_right h

theorem log2_le_14 {q : ℕ} (hq : q ≤ 32767) : Nat.log2 q ≤ 14 := by
  by_contra h
  have h1 : (2 : ℕ) ^ 15 ≤ 2 ^ Nat.log2 q :=
    Nat.pow_le_pow_right (by norm_num) (by omega)
  have h2 : q < 2 ^ (Nat.log2 q + 1) := Nat.lt_log2_self
  have h3 : 2 ^ Nat.log2 q ≤ q := by
    rcases Nat.eq_zero_or_pos q with h0 | h0
    · subst h0
      simp [Nat.log2] at h
    · exact Nat.log2_self_le (by omega)
  have : (2 : ℕ) ^ 15 = 32768 := by norm_num
  omega

theorem av1_cost_symbol_eq (p15 : ℕ) :
    av1_cost_symbol p15 =
      (av1_prob_cost.getD
        (get_prob (p15 * 2 ^ (14 - Nat.log2 p15)) CDF_PROB_TOP) 0 : ℤ)
      + 512 * ((14 - Nat.log2 p15 : ℕ) : ℤ) := by
  unfold av1_cost_symbol
  norm_num [CDF_PROB_BITS, AV1_PROB_COST_SHIFT]

theorem av1_cost_symbol_antitone {p q : ℕ} (hp : 1 ≤ p) (hq : q ≤ 32767)
    (hpq : p ≤ q) : av1_cost_symbol q ≤ av1_cost_symbol p := by
  have hq1 : 1 ≤ q := le_trans hp hpq
  have hp2 : p ≤ 32767 := le_trans hpq hq
  have hnp := normalized_bounds hp hp2
  have hnq := normalized_bounds hq1 hq
  have hrp := get_prob_bounds hnp.1 hnp.2
  have hrq := get_prob_bounds hnq.1 hnq.2
  rw [av1_cost_symbol_eq p, av1_cost_symbol_eq q]
  rcases eq_or_lt_of_le (log2_le_log2 hpq) with heq | hlt
  · -- same octave: equal shift, table is non-increasing on [128, 255]
    rw [← heq] at hrq ⊢
    have hmul : p * 2 ^ (14 - Nat.log2 p) ≤ q * 2 ^ (14 - Nat.log2 p) :=
      Nat.mul_le_mul_right _ hpq
    have hprob : get_prob (p * 2 ^ (14 - Nat.log2 p)) CDF_PROB_TOP
        ≤ get_prob (q * 2 ^ (14 - Nat.log2 p)) CDF_PROB_TOP :=
      get_prob_mono hmul
    have htbl := anti_on_of_step (fun i => av1_prob_cost.getD i 0) 128 255
      (fun i h1 h2 => prob_cost_step i h2 h1)
      (get_prob (p * 2 ^ (14 - Nat.log2 p)) CDF_PROB_TOP)
      (get_prob (q * 2 ^ (14 - Nat.log2 p)) CDF_PROB_TOP)
      hrp.1 hprob hrq.2
    simp only at htbl
    omega
  · -- strictly larger octave: the 512-per-octave term dominates
    have hmp14 : Nat.log2 p ≤ 14 := log2_le_14 hp2
    have hmq14 : Nat.log2 q ≤ 14 := log2_le_14 hq
    have htq : av1_prob_cost.getD
        (get_prob (q * 2 ^ (14 - Nat.log2 q)) CDF_PROB_TOP) 0 ≤ 512 :=
      prob_cost_le_512 _ (by omega) hrq.1
    have htp : 3 ≤ av1_prob_cost.getD
        (get_prob (p * 2 ^ (14 - Nat.log2 p)) CDF_PROB_TOP) 0 :=
      prob_cost_ge_3 _ (by omega) hrp.1
    have hsh : (14 - Nat.log2 q) + 1 ≤ 14 - Nat.log2 p := by omega
    omega

theorem av1_cost_symbol_nonneg (p15 : ℕ) : 0 ≤ av1_cost_symbol p15 := by
  rw [av1_cost_symbol_eq]
  positivity

/-- For a valid CDF (masses at least `EC_MIN_PROB`, sentinel at `k ≥ 1`) the
clamped mass of each symbol is the plain difference of consecutive stored
values and lies in `[EC_MIN_PROB, 32767]`. -/
theorem clampedMass_facts (cdf : ℕ → ℕ) (k : ℕ) (hk : 1 ≤ k)
    (hfirst : cdf 0 + EC_MIN_PROB ≤ CDF_PROB_TOP)
    (hmono : ∀ i, i < k → cdf (i + 1) + EC_MIN_PROB ≤ cdf i)
    (_hsent : cdf k = 0) :
    ∀ i, i ≤ k →
      clampedMass cdf i
          = (if i = 0 then 32768 - cdf 0 else cdf (i - 1) - cdf i) ∧
        EC_MIN_PROB ≤ clampedMass cdf i ∧ clampedMass cdf i ≤ 32767 := by
  have hchain : ∀ i j, i ≤ j → j ≤ k → cdf j ≤ cdf i := by
    intro i j hij hjk
    refine anti_on_of_step cdf 0 k ?_ i j (Nat.zero_le i) hij hjk
    intro i' _ hik
    have := hmono i' hik
    unfold EC_MIN_PROB at this
    omega
  have htop : CDF_PROB_TOP = 32768 := rfl
  rw [htop] at hfirst
  unfold EC_MIN_PROB at hfirst
  intro i hi
  rcases Nat.eq_zero_or_pos i with h0 | h0
  · subst h0
    have h1 : cdf 1 + EC_MIN_PROB ≤ cdf 0 := hmono 0 (by omega)
    have h2 : cdf k ≤ cdf 1 := hchain 1 k hk le_rfl
    unfold EC_MIN_PROB at h1
    unfold clampedMass AOM_ICDF EC_MIN_PROB
    simp only [if_pos rfl]
    split_ifs <;> omega
  · obtain ⟨i', rfl⟩ : ∃ i', i = i' + 1 := ⟨i - 1, by omega⟩
    have h1 : cdf (i' + 1) + EC_MIN_PROB ≤ cdf i' := hmono i' (by omega)
    have h2 : cdf i' ≤ cdf 0 := hchain 0 i' (by omega) (by omega)
    unfold EC_MIN_PROB at h1
    unfold clampedMass AOM_ICDF EC_MIN_PROB
    simp only [Nat.add_sub_cancel, if_neg (Nat.succ_ne_zero i')]
    split_ifs <;> omega

/-- **C3**: for every valid CDF array ending in the sentinel maximum, the
costs written by `av1_cost_tokens_from_cdf` are non-negative and bounded
above by the cost of the minimum probability `EC_MIN_PROB` (finite), and
they are monotonically non-increasing as the clamped probability mass of a
symbol increases. -/
theorem C3_cost_monotone_bounded (cdf tgt : ℕ → ℕ) (k fuel : ℕ)
    (hk : 1 ≤ k)
    (hfirst : cdf 0 + EC_MIN_PROB ≤ CDF_PROB_TOP)
    (hmono : ∀ i, i < k → cdf (i + 1) + EC_MIN_PROB ≤ cdf i)
    (hsent : cdf k = 0)
    (hfuel : k + 1 ≤ fuel) :
    (∀ e ∈ av1_cost_tokens_from_cdf cdf tgt fuel,
        0 ≤ e.2 ∧ e.2 ≤ av1_cost_symbol EC_MIN_PROB) ∧
    (∀ i j, i ≤ k → j ≤ k →
        clampedMass cdf i ≤ clampedMass cdf j →
        av1_cost_symbol (clampedMass cdf j)
          ≤ av1_cost_symbol (clampedMass cdf i)) := by
  have hfacts := clampedMass_facts cdf k hk hfirst hmono hsent
  have hne0 : ∀ i, i < k → cdf i ≠ 0 := by
    intro i hik
    have := hmono i hik
    unfold EC_MIN_PROB at this
    omega
  have hmain := costTokensLoop_spec cdf tgt k hsent hne0 k 0 fuel (by omega)
    (by omega)
  simp only [Nat.zero_add] at hmain
  have hmain2 : costTokensLoop cdf tgt 0 0 fuel
      = (List.range (k + 1)).map
          (fun t => (tgt t, av1_cost_symbol (clampedMass cdf t))) := hmain
  constructor
  · intro e he
    have he2 : e ∈ (List.range (k + 1)).map
        (fun t => (tgt t, av1_cost_symbol (clampedMass cdf t))) := by
      rw [← hmain2]
      exact he
    simp only [List.mem_map, List.mem_range] at he2
    obtain ⟨t, ht, rfl⟩ := he2
    refine ⟨av1_cost_symbol_nonneg _, ?_⟩
    have hm := hfacts t (by omega)
    exact av1_cost_symbol_antitone (by decide) hm.2.2
      (by have := hm.2.1; unfold EC_MIN_PROB at this ⊢; omega)
  · intro i j hik hjk hij
    have hmi := hfacts i hik
    have hmj := hfacts j hjk
    refine av1_cost_symbol_antitone ?_ hmj.2.2 hij
    have := hmi.2.1
    unfold EC_MIN_PROB at this
    omega

theorem C3_cost_monotone_bounded_witness :
    av1_cost_symbol (clampedMass (fun i => [24576, 16384, 8192, 0].getD i 0) 2)
      ≤ av1_cost_symbol
          (clampedMass (fun i => [24576, 16384, 8192, 0].getD i 0) 1) :=
  (C3_cost_monotone_bounded (fun i => [24576, 16384, 8192, 0].getD i 0)
      (fun i => i) 3 4 (by decide) (by decide) (by decide) (by decide)
      (by decide)).2
    1 2 (by decide) (by decide) (by decide)

/-! ### Context selection (src/av1/common/entropy.h)

`ENTROPY_CONTEXT` is a byte; `get_entropy_context` reads the neighbour
context as one wide little-endian `uint8/16/32/64` load per side (the width
depends on the transform size) and tests it against zero.  The
`CONFIG_TX64X64`-only cases are compiled out in this configuration. -/

/-- A little-endian wide load of `n` bytes starting at offset 0 of `a`. -/
def wideLoad (a : ℕ → ℕ) : ℕ → ℕ
  | 0 => 0
  | n + 1 => wideLoad a n + a n * 256 ^ n

/-- The `!!`/`!=` coercion of a test into an `ENTROPY_CONTEXT` 0/1 flag. -/
def boolToEC (p : Prop) [Decidable p] : ℕ := if p then 1 else 0

/-- Embedding of `combine_entropy_contexts`: `(a != 0) + (b != 0)`. -/
def combine_entropy_contexts (a b : ℕ) : ℕ :=
  (if a ≠ 0 then 1 else 0) + (if b ≠ 0 then 1 else 0)

/-- The transform sizes handled by the `switch` of `get_entropy_context`
(without the `CONFIG_TX64X64` cases). -/
inductive TX_SIZE where
  | TX_4X4 | TX_8X8 | TX_16X16 | TX_32X32
  | TX_4X8 | TX_8X4 | TX_8X16 | TX_16X8 | TX_16X32 | TX_32X16
  | TX_4X16 | TX_16X4 | TX_8X32 | TX_32X8
deriving DecidableEq

open TX_SIZE

/-- Embedding of `get_entropy_context`: each case performs the wide loads
of the source's `switch` (1, 2, 4 or 8 bytes per side), converts them to
0/1 flags with `!!` (or `!= 0`), and combines them. -/
def get_entropy_context (tx : TX_SIZE) (a l : ℕ → ℕ) : ℕ :=
  match tx with
  | TX_4X4 => combine_entropy_contexts (boolToEC (a 0 ≠ 0)) (boolToEC (l 0 ≠ 0))
  | TX_4X8 =>
      combine_entropy_contexts (boolToEC (a 0 ≠ 0)) (boolToEC (wideLoad l 2 ≠ 0))
  | TX_8X4 =>
      combine_entropy_contexts (boolToEC (wideLoad a 2 ≠ 0)) (boolToEC (l 0 ≠ 0))
  | TX_8X16 =>
      combine_entropy_contexts (boolToEC (wideLoad a 2 ≠ 0))
        (boolToEC (wideLoad l 4 ≠ 0))
  | TX_16X8 =>
      combine_entropy_contexts (boolToEC (wideLoad a 4 ≠ 0))
        (boolToEC (wideLoad l 2 ≠ 0))
  | TX_16X32 =>
      combine_entropy_contexts (boolToEC (wideLoad a 4 ≠ 0))
        (boolToEC (wideLoad l 8 ≠ 0))
  | TX_32X16 =>
      combine_entropy_contexts (boolToEC (wideLoad a 8 ≠ 0))
        (boolToEC (wideLoad l 4 ≠ 0))
  | TX_8X8 =>
      combine_entropy_contexts (boolToEC (wideLoad a 2 ≠ 0))
        (boolToEC (wideLoad l 2 ≠ 0))
  | TX_16X16 =>
      combine_entropy_contexts (boolToEC (wideLoad a 4 ≠ 0))
        (boolToEC (wideLoad l 4 ≠ 0))
  | TX_32X32 =>
      combine_entropy_contexts (boolToEC (wideLoad a 8 ≠ 0))
        (boolToEC (wideLoad l 8 ≠ 0))
  | TX_4X16 =>
      combine_entropy_contexts (boolToEC (a 0 ≠ 0)) (boolToEC (wideLoad l 4 ≠ 0))
  | TX_16X4 =>
      combine_entropy_contexts (boolToEC (wideLoad a 4 ≠ 0)) (boolToEC (l 0 ≠ 0))
  | TX_8X32 =>
      combine_entropy_contexts (boolToEC (wideLoad a 2 ≠ 0))
        (boolToEC (wideLoad l 8 ≠ 0))
  | TX_32X8 =>
      combine_entropy_contexts (boolToEC (wideLoad a 8 ≠ 0))
        (boolToEC (wideLoad l 2 ≠ 0))

/-- Number of above-context bytes each case of the `switch` reads. -/
def aboveBytes : TX_SIZE → ℕ
  | TX_4X4 => 1 | TX_4X8 => 1 | TX_8X4 => 2 | TX_8X16 => 2
  | TX_16X8 => 4 | TX_16X32 => 4 | TX_32X16 => 8 | TX_8X8 => 2
  | TX_16X16 => 4 | TX_32X32 => 8 | TX_4X16 => 1 | TX_16X4 => 4
  | TX_8X32 => 2 | TX_32X8 => 8

/-- Number of left-context bytes each case of the `switch` reads. -/
def leftBytes : TX_SIZE → ℕ
  | TX_4X4 => 1 | TX_4X8 => 2 | TX_8X4 => 1 | TX_8X16 => 4
  | TX_16X8 => 2 | TX_16X32 => 8 | TX_32X16 => 4 | TX_8X8 => 2
  | TX_16X16 => 4 | TX_32X32 => 8 | TX_4X16 => 4 | TX_16X4 => 1
  | TX_8X32 => 8 | TX_32X8 => 2

theorem wideLoad_eq_zero (a : ℕ → ℕ) (n : ℕ) :
    wideLoad a n = 0 ↔ ∀ t, t < n → a t = 0 := by
  induction n with
  | zero => simp [wideLoad]
  | succ n ih =>
      rw [wideLoad, Nat.add_eq_zero, Nat.mul_eq_zero, ih]
      have hpow : 256 ^ n ≠ 0 := by positivity
      constructor
      · rintro ⟨h1, h2 | h2⟩
        · intro t ht
          rcases Nat.lt_or_ge t n with h | h
          · exact h1 t h
          · have ht' : t = n := by omega
            subst ht'
            exact h2
        · exact absurd h2 hpow
      · intro h
        exact ⟨fun t ht => h t (by omega), Or.inl (h n (by omega))⟩

theorem wideLoad_ne_zero (a : ℕ → ℕ) (n : ℕ) :
    wideLoad a n ≠ 0 ↔ ∃ t, t < n ∧ a t ≠ 0 := by
  rw [Ne, wideLoad_eq_zero]
  push_neg
  rfl

theorem byte_ne_zero_iff (a : ℕ → ℕ) : (a 0 ≠ 0) ↔ ∃ t, t < 1 ∧ a t ≠ 0 := by
  constructor
  · intro h
    exact ⟨0, by omega, h⟩
  · rintro ⟨t, ht, h⟩
    have ht0 : t = 0 := by omega
    subst ht0
    exact h

theorem combine_boolToEC (pa pl : Prop) [Decidable pa] [Decidable pl] :
    combine_entropy_contexts (boolToEC pa) (boolToEC pl)
      = (if pa then 1 else 0) + (if pl then 1 else 0) := by
  unfold combine_entropy_contexts boolToEC
  split_ifs <;> simp_all

/-- **C4**: for every supported transform size, `get_entropy_context`
returns exactly `(above-window-nonzero ? 1 : 0) + (left-window-nonzero ?
1 : 0)` (windows = the bytes the wide-read shortcut covers), a value in
`{0, 1, 2}`; in particular 0 when both windows are entirely zero and 2 when
both windows are non-zero, regardless of which wide-read shortcut the case
uses. -/
theorem C4_get_entropy_context (tx : TX_SIZE) (a l : ℕ → ℕ) :
    get_entropy_context tx a l
      = (if ∃ t, t < aboveBytes tx ∧ a t ≠ 0 then 1 else 0)
        + (if ∃ t, t < leftBytes tx ∧ l t ≠ 0 then 1 else 0) ∧
    get_entropy_context tx a l ≤ 2 ∧
    ((∀ t, t < aboveBytes tx → a t = 0) → (∀ t, t < leftBytes tx → l t = 0) →
      get_entropy_context tx a l = 0) ∧
    ((∃ t, t < aboveBytes tx ∧ a t ≠ 0) → (∃ t, t < leftBytes tx ∧ l t ≠ 0) →
      get_entropy_context tx a l = 2) := by
  have hmain : get_entropy_context tx a l
      = (if ∃ t, t < aboveBytes tx ∧ a t ≠ 0 then 1 else 0)
        + (if ∃ t, t < leftBytes tx ∧ l t ≠ 0 then 1 else 0) := by
    cases tx <;>
      simp only [get_entropy_context, aboveBytes, leftBytes, combine_boolToEC,
        wideLoad_ne_zero, byte_ne_zero_iff]
  refine ⟨hmain, ?_, ?_, ?_⟩
  · rw [hmain]
    split_ifs <;> norm_num
  · intro h1 h2
    rw [hmain, if_neg, if_neg]
    · rintro ⟨t, ht, hne⟩
      exact hne (h2 t ht)
    · rintro ⟨t, ht, hne⟩
      exact hne (h1 t ht)
  · intro h1 h2
    rw [hmain, if_pos h1, if_pos h2]

theorem C4_get_entropy_context_witness :
    get_entropy_context TX_8X8 (fun _ => 1) (fun _ => 1) = 2 :=
  (C4_get_entropy_context TX_8X8 (fun _ => 1) (fun _ => 1)).2.2.2
    (by decide) (by decide)

/-! ### cat6 extra-bit count (src/av1/common/entropy.h) -/

/-- `CAT6_BIT_SIZE` of entropy.h. -/
def CAT6_BIT_SIZE : ℕ := 18

/-- Transform block width in pixels (av1/common/enums.h geometry). -/
def txw : TX_SIZE → ℕ
  | TX_4X4 => 4 | TX_8X8 => 8 | TX_16X16 => 16 | TX_32X32 => 32
  | TX_4X8 => 4 | TX_8X4 => 8 | TX_8X16 => 8 | TX_16X8 => 16
  | TX_16X32 => 16 | TX_32X16 => 32 | TX_4X16 => 4 | TX_16X4 => 16
  | TX_8X32 => 8 | TX_32X8 => 32

/-- Transform block height in pixels. -/
def txh : TX_SIZE → ℕ
  | TX_4X4 => 4 | TX_8X8 => 8 | TX_16X16 => 16 | TX_32X32 => 32
  | TX_4X8 => 8 | TX_8X4 => 4 | TX_8X16 => 16 | TX_16X8 => 8
  | TX_16X32 => 32 | TX_32X16 => 16 | TX_4X16 => 16 | TX_16X4 => 4
  | TX_8X32 => 32 | TX_32X8 => 8

/-- Modelled from the spec: `txsize_sqr_up_map` of av1/common/common_data.h —
the smallest square transform size containing the given one. -/
def txsize_sqr_up_map : TX_SIZE → TX_SIZE
  | TX_4X4 => TX_4X4 | TX_8X8 => TX_8X8 | TX_16X16 => TX_16X16
  | TX_32X32 => TX_32X32 | TX_4X8 => TX_8X8 | TX_8X4 => TX_8X8
  | TX_8X16 => TX_16X16 | TX_16X8 => TX_16X16 | TX_16X32 => TX_32X32
  | TX_32X16 => TX_32X32 | TX_4X16 => TX_16X16 | TX_16X4 => TX_16X16
  | TX_8X32 => TX_32X32 | TX_32X8 => TX_32X32

/-- Enum code of a transform size (`TX_4X4 = 0`, squares first), so
`tx_size - TX_4X4` of the source is `txEnumIdx (txsize_sqr_up_map tx)`. -/
def txEnumIdx : TX_SIZE → ℕ
  | TX_4X4 => 0 | TX_8X8 => 1 | TX_16X16 => 2 | TX_32X32 => 3
  | TX_4X8 => 4 | TX_8X4 => 5 | TX_8X16 => 6 | TX_16X8 => 7
  | TX_16X32 => 8 | TX_32X16 => 9 | TX_4X16 => 10 | TX_16X4 => 11
  | TX_8X32 => 12 | TX_32X8 => 13

/-- Embedding of `av1_get_cat6_extrabits_size`: square-up the transform
size, add `bit_depth + 3`, round up to a multiple of 4 (`(bits + 3) & ~3`),
and cap at `CAT6_BIT_SIZE`. -/
def av1_get_cat6_extrabits_size (tx : TX_SIZE) (bit_depth : ℕ) : ℕ :=
  let tx_offset := txEnumIdx (txsize_sqr_up_map tx)
  let bits := bit_depth + 3 + tx_offset
  min CAT6_BIT_SIZE ((bits + 3) / 4 * 4)

/-- **C8**: `av1_get_cat6_extrabits_size` is monotonically non-decreasing in
transform size (one block fitting inside the other) and in bit depth (over
the supported depths 8, 10, 12), never exceeds the cap `CAT6_BIT_SIZE =
18`, and below the cap it is the raw bit count `bit_depth + 3 + tx_offset`
rounded up to a multiple of 4. -/
theorem C8_cat6_extrabits_size (tx1 tx2 : TX_SIZE) (bd1 bd2 : ℕ)
    (hbd1 : bd1 = 8 ∨ bd1 = 10 ∨ bd1 = 12)
    (hbd2 : bd2 = 8 ∨ bd2 = 10 ∨ bd2 = 12) :
    (txw tx1 ≤ txw tx2 → txh tx1 ≤ txh tx2 → bd1 ≤ bd2 →
      av1_get_cat6_extrabits_size tx1 bd1
        ≤ av1_get_cat6_extrabits_size tx2 bd2) ∧
    av1_get_cat6_extrabits_size tx1 bd1 ≤ CAT6_BIT_SIZE ∧
    (av1_get_cat6_extrabits_size tx1 bd1 = CAT6_BIT_SIZE ∨
      (av1_get_cat6_extrabits_size tx1 bd1 % 4 = 0 ∧
        bd1 + 3 + txEnumIdx (txsize_sqr_up_map tx1)
          ≤ av1_get_cat6_extrabits_size tx1 bd1 ∧
        av1_get_cat6_extrabits_size tx1 bd1
          < bd1 + 3 + txEnumIdx (txsize_sqr_up_map tx1) + 4)) := by
  rcases hbd1 with rfl | rfl | rfl <;> rcases hbd2 with rfl | rfl | rfl <;>
    cases tx1 <;> cases tx2 <;> decide

theorem C8_cat6_extrabits_size_witness :
    av1_get_cat6_extrabits_size TX_4X8 8 ≤ av1_get_cat6_extrabits_size TX_16X32 12 :=
  (C8_cat6_extrabits_size TX_4X8 TX_16X32 8 12 (by decide) (by decide)).1
    (by decide) (by decide) (by decide)

/-! ### Tile CDF aggregation (claim C9)

`av1_average_tile_coef_cdfs` and its siblings are only declared in
src/av1/common/entropy.h; their implementation is outside this excerpt. -/

/-- Modelled from the spec: the end-of-frame tile aggregation
(`av1_average_tile_coef_cdfs` and siblings) merges the per-tile
`(CDF set, symbol count)` pairs per context entry by count-weighted
averaging.  A tile's CDF set is a function from entry index to stored
value. -/
def averageTileCdfs (tiles : List ((ℕ → ℤ) × ℕ)) (e : ℕ) : ℤ :=
  let wsum := (tiles.map (fun t => t.1 e * (t.2 : ℤ))).sum
  let csum := (tiles.map (fun t => (t.2 : ℤ))).sum
  wsum / csum

/-- **C9**: for a fixed multiset of per-tile (CDF, count) pairs, tile
aggregation produces the same merged frame-level CDF regardless of the
order the tiles are presented in: the per-context combination is
commutative across tiles. -/
theorem C9_tile_aggregation_order_independent
    (l1 l2 : List ((ℕ → ℤ) × ℕ)) (hperm : l1.Perm l2) :
    ∀ e, averageTileCdfs l1 e = averageTileCdfs l2 e := by
  intro e
  unfold averageTileCdfs
  rw [List.Perm.sum_eq (hperm.map _), List.Perm.sum_eq (hperm.map _)]

theorem C9_tile_aggregation_order_independent_witness :
    averageTileCdfs [(fun _ => 3, 2), (fun _ => 9, 1)] 0
      = averageTileCdfs [(fun _ => 9, 1), (fun _ => 3, 2)] 0 :=
  C9_tile_aggregation_order_independent
    [(fun _ => 3, 2), (fun _ => 9, 1)] [(fun _ => 9, 1), (fun _ => 3, 2)]
    (List.Perm.swap _ _ _) 0

/-! ### Flat (constant) planes through the self-guided pipeline (claim C5) -/

theorem boxsum_flat (c : ℤ) (r y x : ℕ) (hy : r + 1 ≤ y) (hx : r + 1 ≤ x) :
    boxsumFromII (intImg (fun _ _ => c)) y x r
      = (((2 * r + 1) * (2 * r + 1) : ℕ) : ℤ) * c := by
  rw [boxsumFromII_intImg _ _ _ _ hy hx]
  unfold windowSum
  rw [sumTo_congr (2 * r + 1) (fun dy _ => sumTo_const c (2 * r + 1)),
    sumTo_const]
  push_cast
  ring

theorem xByXplus1_zero : xByXplus1 0 = 0 := by decide

theorem calcA_flat8 (v : ℤ) (n eps : ℕ) :
    calcA ((n : ℤ) * v) ((n : ℤ) * (v * v)) 8 n eps = 0 := by
  unfold calcA
  have hp : computeP ((n : ℤ) * v) ((n : ℤ) * (v * v)) 8 n = 0 := by
    unfold computeP
    rw [if_neg (by norm_num)]
    ring
  rw [hp]
  have hz : zIndex 0 (sgrprojMtable eps n) = 0 := by
    unfold zIndex roundForShift SGRPROJ_MTABLE_BITS
    norm_num
  rw [hz, xByXplus1_zero]

theorem sum1At_flat (v : ℤ) (r y x : ℕ) (hy : r + 1 ≤ y) (hx : r + 1 ≤ x) :
    sum1At (fun _ _ => v) r y x = (((2 * r + 1) * (2 * r + 1) : ℕ) : ℤ) * v :=
  boxsum_flat v r y x hy hx

theorem sum2At_flat (v : ℤ) (r y x : ℕ) (hy : r + 1 ≤ y) (hx : r + 1 ≤ x) :
    sum2At (fun _ _ => v) r y x
      = (((2 * r + 1) * (2 * r + 1) : ℕ) : ℤ) * (v * v) := by
  show boxsumFromII (intImg (sqPlane (fun _ _ => v))) y x r = _
  have hsq : sqPlane (fun _ _ => v) = fun _ _ => v * v := rfl
  rw [hsq]
  exact boxsum_flat (v * v) r y x hy hx

theorem aMap_flat8 (v : ℤ) (eps r y x : ℕ) (hy : r + 1 ≤ y)
    (hx : r + 1 ≤ x) : aMap (fun _ _ => v) 8 eps r y x = 0 := by
  unfold aMap
  rw [sum1At_flat v r y x hy hx, sum2At_flat v r y x hy hx]
  exact calcA_flat8 v _ eps

/-- Rounded-reciprocal products stay close to `2^12`: needed to rule the
32-bit wrap out of the flat-plane `b` computation. -/
theorem oneByX_mul_le (r : ℕ) (hr : r ≤ 2) :
    (oneByX ((2 * r + 1) * (2 * r + 1))) * ((2 * r + 1) * (2 * r + 1)) ≤ 4200 := by
  interval_cases r <;> decide

theorem calcB_flat8 (v : ℤ) (n eps : ℕ) (hv0 : 0 ≤ v) (hv : v ≤ 255)
    (hprod : (oneByX n) * n ≤ 4200) :
    calcB ((n : ℤ) * v) ((n : ℤ) * (v * v)) 8 n eps
      = (256 * (oneByX n : ℤ) * ((n : ℤ) * v) + 2048) / 4096 := by
  unfold calcB
  rw [calcA_flat8 v n eps]
  have hsgr : (SGRPROJ_SGR : ℤ) - 0 = 256 := by decide
  rw [hsgr]
  have hrnd : roundForShift SGRPROJ_RECIP_BITS = 2048 := by decide
  rw [hrnd]
  have hshift : (2 : ℤ) ^ SGRPROJ_RECIP_BITS = 4096 := by decide
  rw [hshift]
  have hx : (0 : ℤ) ≤ 256 * (oneByX n : ℤ) * ((n : ℤ) * v) + 2048 := by
    have h1 : (0 : ℤ) ≤ (oneByX n : ℤ) := Int.natCast_nonneg _
    have h2 : (0 : ℤ) ≤ (n : ℤ) := Int.natCast_nonneg _
    positivity
  have hub : 256 * (oneByX n : ℤ) * ((n : ℤ) * v) + 2048 < 2 ^ 32 := by
    have h1 : ((oneByX n) * n : ℤ) ≤ 4200 := by exact_mod_cast hprod
    have h2 : (0 : ℤ) ≤ (oneByX n : ℤ) := Int.natCast_nonneg _
    have h3 : (0 : ℤ) ≤ (n : ℤ) := Int.natCast_nonneg _
    nlinarith
  show (256 * (oneByX n : ℤ) * ((n : ℤ) * v) + 2048) % 2 ^ 32 / 4096
    = (256 * (oneByX n : ℤ) * ((n : ℤ) * v) + 2048) / 4096
  rw [Int.emod_eq_of_lt hx hub]

theorem crossSum_eq_of_taps (f : ℕ → ℕ → ℤ) (y x : ℕ) (c : ℤ)
    (h1 : f (y - 1) (x - 1) = c) (h2 : f (y - 1) x = c)
    (h3 : f (y - 1) (x + 1) = c) (h4 : f y (x - 1) = c) (h5 : f y x = c)
    (h6 : f y (x + 1) = c) (h7 : f (y + 1) (x - 1) = c)
    (h8 : f (y + 1) x = c) (h9 : f (y + 1) (x + 1) = c) :
    crossSum f y x = 32 * c := by
  unfold crossSum
  rw [h1, h2, h3, h4, h5, h6, h7, h8, h9]
  ring

/-- Closed form of one `final_filter` output lane over a flat plane in the
8-bit path (`a = 0`, `b` the rounded reciprocal product). -/
def flatFlt8 (v : ℤ) (n : ℕ) : ℤ :=
  (32 * ((256 * (oneByX n : ℤ) * ((n : ℤ) * v) + 2048) / 4096) + 256) / 512

theorem finalFilterPx_flat8 (v : ℤ) (eps r i j : ℕ) (hv0 : 0 ≤ v)
    (hv : v ≤ 255) (hr : r ≤ 2) :
    finalFilterPx (fun _ _ => v) 8 eps r i j
      = flatFlt8 v ((2 * r + 1) * (2 * r + 1)) := by
  have hb : ∀ y x, r + 1 ≤ y → r + 1 ≤ x →
      bMap (fun _ _ => v) 8 eps r y x
        = (256 * (oneByX ((2 * r + 1) * (2 * r + 1)) : ℤ)
            * ((((2 * r + 1) * (2 * r + 1) : ℕ) : ℤ) * v) + 2048) / 4096 := by
    intro y x hy hx
    unfold bMap
    rw [sum1At_flat v r y x hy hx, sum2At_flat v r y x hy hx]
    exact calcB_flat8 v _ eps hv0 hv (oneByX_mul_le r hr)
  have ha : crossSum (aMap (fun _ _ => v) 8 eps r) (i + 4) (j + 4)
      = 32 * 0 := by
    refine crossSum_eq_of_taps _ _ _ 0 ?_ ?_ ?_ ?_ ?_ ?_ ?_ ?_ ?_ <;>
      exact aMap_flat8 v eps r _ _ (by omega) (by omega)
  have hbc : crossSum (bMap (fun _ _ => v) 8 eps r) (i + 4) (j + 4)
      = 32 * ((256 * (oneByX ((2 * r + 1) * (2 * r + 1)) : ℤ)
          * ((((2 * r + 1) * (2 * r + 1) : ℕ) : ℤ) * v) + 2048) / 4096) := by
    refine crossSum_eq_of_taps _ _ _ _ ?_ ?_ ?_ ?_ ?_ ?_ ?_ ?_ ?_ <;>
      exact hb _ _ (by omega) (by omega)
  unfold finalFilterPx flatFlt8
  rw [ha, hbc]
  have hrnd : roundForShift (SGRPROJ_SGR_BITS + 5 - SGRPROJ_RST_BITS)
      = 256 := by decide
  have hsh : (2 : ℤ) ^ (SGRPROJ_SGR_BITS + 5 - SGRPROJ_RST_BITS) = 512 := by
    decide
  rw [hrnd, hsh]
  norm_num

theorem flatFlt8_off25 (v : ℤ) (hv0 : 0 ≤ v) (hv : v ≤ 255) :
    0 ≤ flatFlt8 v 25 - v * 16 ∧ flatFlt8 v 25 - v * 16 ≤ 4 := by
  have ho : (oneByX 25 : ℤ) = 164 := by decide
  unfold flatFlt8
  rw [ho]
  push_cast
  omega

theorem flatFlt8_off9 (v : ℤ) (hv0 : 0 ≤ v) (hv : v ≤ 255) :
    -1 ≤ flatFlt8 v 9 - v * 16 ∧ flatFlt8 v 9 - v * 16 ≤ 0 := by
  have ho : (oneByX 9 : ℤ) = 455 := by decide
  unfold flatFlt8
  rw [ho]
  push_cast
  omega

/-- The mixing step reproduces `v` exactly on a flat 8-bit plane: the two
per-pass rounding offsets are small enough to be absorbed by the final
round shift for every legal pair of projection coefficients. -/
theorem flat8_blend (v xqd0 xqd1 : ℤ) (hv0 : 0 ≤ v) (hv : v ≤ 255)
    (h0 : -96 ≤ xqd0) (h0' : xqd0 ≤ 31) (h1 : -32 ≤ xqd1) (h1' : xqd1 ≤ 95) :
    (xqd0 * (flatFlt8 v 25 - v * 16)
      + (128 - xqd0 - xqd1) * (flatFlt8 v 9 - v * 16)
      + v * 16 * 128 + 1024) / 2048 = v := by
  obtain ⟨hf1l, hf1u⟩ := flatFlt8_off25 v hv0 hv
  obtain ⟨hf2l, hf2u⟩ := flatFlt8_off9 v hv0 hv
  have hq1l : (2 : ℤ) ≤ 128 - xqd0 - xqd1 := by omega
  have hq1u : 128 - xqd0 - xqd1 ≤ 256 := by omega
  have hAu : xqd0 * (flatFlt8 v 25 - v * 16) ≤ 124 := by
    have t1 : (0 : ℤ) ≤ (31 - xqd0) * (flatFlt8 v 25 - v * 16) :=
      mul_nonneg (by omega) hf1l
    nlinarith
  have hAl : -384 ≤ xqd0 * (flatFlt8 v 25 - v * 16) := by
    have t1 : (0 : ℤ) ≤ (xqd0 + 96) * (flatFlt8 v 25 - v * 16) :=
      mul_nonneg (by omega) hf1l
    nlinarith
  have hBu : (128 - xqd0 - xqd1) * (flatFlt8 v 9 - v * 16) ≤ 0 :=
    mul_nonpos_of_nonneg_of_nonpos (by omega) hf2u
  have hBl : -256 ≤ (128 - xqd0 - xqd1) * (flatFlt8 v 9 - v * 16) := by
    have t1 : (0 : ℤ) ≤ (256 - (128 - xqd0 - xqd1))
        * (0 - (flatFlt8 v 9 - v * 16)) := mul_nonneg (by omega) (by omega)
    nlinarith
  omega

/-- **C5 (amended)**: the flat-plane exactness holds on the 8-bit path: for
every constant plane of value `v ∈ [0, 255]`, every `sgr_params` entry and
every legal pair of mixing coefficients, the self-guided restoration
pipeline returns `v` at every pixel.  (The high-bit-depth path violates the
original claim; see the counterexample.) -/
theorem C5_flat_plane_8bit (v xqd0 xqd1 : ℤ) (eps i j : ℕ)
    (hv0 : 0 ≤ v) (hv : v ≤ 255) (heps : eps < 16)
    (hx0 : SGRPROJ_PRJ_MIN0 ≤ xqd0) (hx0' : xqd0 ≤ SGRPROJ_PRJ_MAX0)
    (hx1 : SGRPROJ_PRJ_MIN1 ≤ xqd1) (hx1' : xqd1 ≤ SGRPROJ_PRJ_MAX1) :
    applySelfguidedPx (fun _ _ => v) 8 false eps xqd0 xqd1 i j = v := by
  have hr1 : (sgr_params.getD eps ⟨2, 12, 1, 4⟩).r1 = 2 := by
    interval_cases eps <;> rfl
  have hr2 : (sgr_params.getD eps ⟨2, 12, 1, 4⟩).r2 = 1 := by
    interval_cases eps <;> rfl
  have hflt1 : finalFilterPx (fun _ _ => v) 8
      (sgr_params.getD eps ⟨2, 12, 1, 4⟩).e1
      (sgr_params.getD eps ⟨2, 12, 1, 4⟩).r1 i j = flatFlt8 v 25 := by
    rw [hr1, finalFilterPx_flat8 v _ 2 i j hv0 hv (by norm_num)]
  have hflt2 : finalFilterPx (fun _ _ => v) 8
      (sgr_params.getD eps ⟨2, 12, 1, 4⟩).e2
      (sgr_params.getD eps ⟨2, 12, 1, 4⟩).r2 i j = flatFlt8 v 9 := by
    rw [hr2, finalFilterPx_flat8 v _ 1 i j hv0 hv (by norm_num)]
  show pack8 ((xqd0 * (finalFilterPx (fun _ _ => v) 8
        (sgr_params.getD eps ⟨2, 12, 1, 4⟩).e1
        (sgr_params.getD eps ⟨2, 12, 1, 4⟩).r1 i j
          - v * 2 ^ SGRPROJ_RST_BITS)
      + ((2 ^ SGRPROJ_PRJ_BITS : ℤ) - xqd0 - xqd1)
        * (finalFilterPx (fun _ _ => v) 8
            (sgr_params.getD eps ⟨2, 12, 1, 4⟩).e2
            (sgr_params.getD eps ⟨2, 12, 1, 4⟩).r2 i j
          - v * 2 ^ SGRPROJ_RST_BITS)
      + v * 2 ^ SGRPROJ_RST_BITS * 2 ^ SGRPROJ_PRJ_BITS
      + roundForShift (SGRPROJ_PRJ_BITS + SGRPROJ_RST_BITS))
      / 2 ^ (SGRPROJ_PRJ_BITS + SGRPROJ_RST_BITS)) = v
  rw [hflt1, hflt2]
  have hc1 : (2 : ℤ) ^ SGRPROJ_RST_BITS = 16 := by decide
  have hc2 : (2 : ℤ) ^ SGRPROJ_PRJ_BITS = 128 := by decide
  have hc3 : roundForShift (SGRPROJ_PRJ_BITS + SGRPROJ_RST_BITS) = 1024 := by
    decide
  have hc4 : (2 : ℤ) ^ (SGRPROJ_PRJ_BITS + SGRPROJ_RST_BITS) = 2048 := by
    decide
  rw [hc1, hc2, hc3, hc4]
  have hblend := flat8_blend v xqd0 xqd1 hv0 hv
    (by have := hx0; unfold SGRPROJ_PRJ_MIN0 at this; omega)
    (by have := hx0'; unfold SGRPROJ_PRJ_MAX0 at this; omega)
    (by have := hx1; unfold SGRPROJ_PRJ_MIN1 at this; omega)
    (by have := hx1'; unfold SGRPROJ_PRJ_MAX1 at this; omega)
  rw [hblend]
  unfold pack8
  omega

theorem C5_flat_plane_8bit_witness :
    applySelfguidedPx (fun _ _ => (137 : ℤ)) 8 false 7 (-96) 95 1 2 = 137 :=
  C5_flat_plane_8bit 137 (-96) 95 7 1 2 (by decide) (by decide) (by decide)
    (by decide) (by decide) (by decide) (by decide)

/-- **C5 counterexample**: the claim fails as stated on the high-bit-depth
path.  On the flat 12-bit plane of maximal value 4095, with the first
`sgr_params` entry and the legal mixing coefficients `xqd = (-96, -32)`,
the pipeline returns 4093, not 4095 (the bit-depth-normalised variance
proxy `p` is 2015 and 5596 — not 0 — for the two passes, so the blend does
not degenerate to the mean). -/
theorem C5_flat_plane_highbd_counterexample :
    applySelfguidedPx (fun _ _ => (4095 : ℤ)) 12 true 0 (-96) (-32) 0 0 = 4093
      ∧ (4093 : ℤ) ≠ 4095 := by
  constructor
  · decide
  · decide

/-! ### Output range of the pipeline (claim C6) -/

theorem zIndex_range (p s : ℤ) : 0 ≤ zIndex p s ∧ zIndex p s ≤ 255 := by
  constructor
  · apply le_min _ (by norm_num)
    apply Int.ediv_nonneg _ (by positivity)
    exact Int.emod_nonneg _ (by positivity)
  · exact min_le_right _ _

set_option maxRecDepth 4000 in
theorem xByXplus1_bounds : ∀ m : ℕ, m < 256 →
    0 ≤ xByXplus1 (m : ℤ) ∧ xByXplus1 (m : ℤ) ≤ 255 := by decide

theorem calcA_range (sum1 sum2 : ℤ) (bd n eps : ℕ) :
    0 ≤ calcA sum1 sum2 bd n eps ∧ calcA sum1 sum2 bd n eps ≤ 255 := by
  unfold calcA
  obtain ⟨hz0, hz255⟩ :=
    zIndex_range (computeP sum1 sum2 bd n) (sgrprojMtable eps n)
  obtain ⟨m, hm⟩ := Int.eq_ofNat_of_zero_le hz0
  rw [hm] at hz255 ⊢
  exact xByXplus1_bounds m (by exact_mod_cast Int.lt_add_one_of_le hz255)

theorem calcB_range (sum1 sum2 : ℤ) (bd n eps : ℕ) :
    0 ≤ calcB sum1 sum2 bd n eps ∧ calcB sum1 sum2 bd n eps ≤ 1048575 := by
  unfold calcB
  constructor
  · apply Int.ediv_nonneg _ (by positivity)
    exact Int.emod_nonneg _ (by positivity)
  · have h2 : (((SGRPROJ_SGR : ℤ) - calcA sum1 sum2 bd n eps)
        * (oneByX n : ℤ) * sum1 + roundForShift SGRPROJ_RECIP_BITS) % 2 ^ 32
        ≤ 2 ^ 32 - 1 := by
      have := Int.emod_lt_of_pos
        (((SGRPROJ_SGR : ℤ) - calcA sum1 sum2 bd n eps)
          * (oneByX n : ℤ) * sum1 + roundForShift SGRPROJ_RECIP_BITS)
        (show (0 : ℤ) < 2 ^ 32 by positivity)
      omega
    have hsh : (2 : ℤ) ^ SGRPROJ_RECIP_BITS = 4096 := by decide
    rw [hsh]
    calc (((SGRPROJ_SGR : ℤ) - calcA sum1 sum2 bd n eps)
          * (oneByX n : ℤ) * sum1 + roundForShift SGRPROJ_RECIP_BITS)
          % 2 ^ 32 / 4096
        ≤ (2 ^ 32 - 1) / 4096 := Int.ediv_le_ediv (by norm_num) h2
      _ = 1048575 := by norm_num

theorem crossSum_range (f : ℕ → ℕ → ℤ) (y x : ℕ) (M : ℤ)
    (h : ∀ y' x', 0 ≤ f y' x' ∧ f y' x' ≤ M) :
    0 ≤ crossSum f y x ∧ crossSum f y x ≤ 32 * M := by
  unfold crossSum
  dsimp only
  obtain ⟨a1, b1⟩ := h (y - 1) (x - 1)
  obtain ⟨a2, b2⟩ := h (y - 1) x
  obtain ⟨a3, b3⟩ := h (y - 1) (x + 1)
  obtain ⟨a4, b4⟩ := h y (x - 1)
  obtain ⟨a5, b5⟩ := h y x
  obtain ⟨a6, b6⟩ := h y (x + 1)
  obtain ⟨a7, b7⟩ := h (y + 1) (x - 1)
  obtain ⟨a8, b8⟩ := h (y + 1) x
  obtain ⟨a9, b9⟩ := h (y + 1) (x + 1)
  constructor <;> nlinarith

theorem finalFilterPx_range (src : ℕ → ℕ → ℤ) (bd eps r i j : ℕ)
    (hsrc : ∀ y x, 0 ≤ src y x ∧ src y x ≤ 4095) :
    0 ≤ finalFilterPx src bd eps r i j ∧
    finalFilterPx src bd eps r i j ≤ 130800 := by
  have hA := crossSum_range (aMap src bd eps r) (i + 4) (j + 4) 255
    (fun y' x' => calcA_range _ _ _ _ _)
  have hB := crossSum_range (bMap src bd eps r) (i + 4) (j + 4) 1048575
    (fun y' x' => calcB_range _ _ _ _ _)
  obtain ⟨hs0, hs1⟩ := hsrc (i + 3) (j + 3)
  unfold finalFilterPx
  have hrnd : roundForShift (SGRPROJ_SGR_BITS + 5 - SGRPROJ_RST_BITS)
      = 256 := by decide
  have hsh : (2 : ℤ) ^ (SGRPROJ_SGR_BITS + 5 - SGRPROJ_RST_BITS) = 512 := by
    decide
  rw [hrnd, hsh]
  have hm0 : (0 : ℤ) ≤ crossSum (aMap src bd eps r) (i + 4) (j + 4)
      * src (i + 3) (j + 3) := mul_nonneg hA.1 hs0
  have hm1 : crossSum (aMap src bd eps r) (i + 4) (j + 4)
      * src (i + 3) (j + 3) ≤ 8160 * 4095 := by nlinarith [hA.2]
  constructor
  · apply Int.ediv_nonneg _ (by norm_num)
    have := hB.1
    omega
  · calc (crossSum (aMap src bd eps r) (i + 4) (j + 4)
          * src (i + 3) (j + 3)
          + crossSum (bMap src bd eps r) (i + 4) (j + 4) + 256) / 512
        ≤ 66969856 / 512 := by
          apply Int.ediv_le_ediv (by norm_num)
          have := hB.2
          omega
      _ = 130800 := by norm_num

theorem pack8_range (w : ℤ) : 0 ≤ pack8 w ∧ pack8 w ≤ 255 := by
  unfold pack8
  omega

theorem packHighbd_range (w : ℤ) (bd : ℕ) (hw : w ≤ 32767)
    (hm1 : 1 ≤ (2 : ℤ) ^ bd) (hm2 : (2 : ℤ) ^ bd - 1 ≤ 32767) :
    0 ≤ packHighbd w bd ∧ packHighbd w bd ≤ 2 ^ bd - 1 := by
  unfold packHighbd toSigned16
  dsimp only
  split_ifs <;> omega

theorem applySelfguidedPx_true_eq (src : ℕ → ℕ → ℤ) (bd : ℕ)
    (eps : ℕ) (xqd0 xqd1 : ℤ) (i j : ℕ) :
    applySelfguidedPx src bd true eps xqd0 xqd1 i j
      = packHighbd ((xqd0 * (finalFilterPx src bd
              (sgr_params.getD eps ⟨2, 12, 1, 4⟩).e1
              (sgr_params.getD eps ⟨2, 12, 1, 4⟩).r1 i j
            - src (i + 3) (j + 3) * 2 ^ SGRPROJ_RST_BITS)
          + ((2 ^ SGRPROJ_PRJ_BITS : ℤ) - xqd0 - xqd1)
            * (finalFilterPx src bd
                (sgr_params.getD eps ⟨2, 12, 1, 4⟩).e2
                (sgr_params.getD eps ⟨2, 12, 1, 4⟩).r2 i j
              - src (i + 3) (j + 3) * 2 ^ SGRPROJ_RST_BITS)
          + src (i + 3) (j + 3) * 2 ^ SGRPROJ_RST_BITS * 2 ^ SGRPROJ_PRJ_BITS
          + roundForShift (SGRPROJ_PRJ_BITS + SGRPROJ_RST_BITS))
          / 2 ^ (SGRPROJ_PRJ_BITS + SGRPROJ_RST_BITS)) bd := rfl

theorem applySelfguidedPx_false_eq (src : ℕ → ℕ → ℤ) (bd : ℕ)
    (eps : ℕ) (xqd0 xqd1 : ℤ) (i j : ℕ) :
    applySelfguidedPx src bd false eps xqd0 xqd1 i j
      = pack8 ((xqd0 * (finalFilterPx src bd
              (sgr_params.getD eps ⟨2, 12, 1, 4⟩).e1
              (sgr_params.getD eps ⟨2, 12, 1, 4⟩).r1 i j
            - src (i + 3) (j + 3) * 2 ^ SGRPROJ_RST_BITS)
          + ((2 ^ SGRPROJ_PRJ_BITS : ℤ) - xqd0 - xqd1)
            * (finalFilterPx src bd
                (sgr_params.getD eps ⟨2, 12, 1, 4⟩).e2
                (sgr_params.getD eps ⟨2, 12, 1, 4⟩).r2 i j
              - src (i + 3) (j + 3) * 2 ^ SGRPROJ_RST_BITS)
          + src (i + 3) (j + 3) * 2 ^ SGRPROJ_RST_BITS * 2 ^ SGRPROJ_PRJ_BITS
          + roundForShift (SGRPROJ_PRJ_BITS + SGRPROJ_RST_BITS))
          / 2 ^ (SGRPROJ_PRJ_BITS + SGRPROJ_RST_BITS)) := rfl

/-- **C6**: for every input plane with samples in the valid range of its bit
depth and all valid parameters, every sample the pipeline writes lies in
`[0, 2^bit_depth - 1]` — on the 8-bit path through the pack/saturate pair,
on the high-bit-depth path through `packus` plus the signed `min` (which is
only correct because the blended value provably stays below `2^15`).  The
per-pixel functional embedding makes the geometry claim implicit: the
output is defined on the same index space as the input. -/
theorem C6_output_range (src : ℕ → ℕ → ℤ) (bit_depth : ℕ) (highbd : Bool)
    (eps : ℕ) (xqd0 xqd1 : ℤ) (i j : ℕ)
    (hbd : bit_depth = 8 ∨ bit_depth = 10 ∨ bit_depth = 12)
    (hbd8 : highbd = false → bit_depth = 8)
    (hsrc : ∀ y x, 0 ≤ src y x ∧ src y x ≤ 2 ^ bit_depth - 1)
    (hx0 : SGRPROJ_PRJ_MIN0 ≤ xqd0) (hx0' : xqd0 ≤ SGRPROJ_PRJ_MAX0)
    (hx1 : SGRPROJ_PRJ_MIN1 ≤ xqd1) (hx1' : xqd1 ≤ SGRPROJ_PRJ_MAX1) :
    0 ≤ applySelfguidedPx src bit_depth highbd eps xqd0 xqd1 i j ∧
    applySelfguidedPx src bit_depth highbd eps xqd0 xqd1 i j
      ≤ 2 ^ bit_depth - 1 := by
  have hsrc4095 : ∀ y x, 0 ≤ src y x ∧ src y x ≤ 4095 := by
    intro y x
    obtain ⟨h1, h2⟩ := hsrc y x
    rcases hbd with rfl | rfl | rfl <;> norm_num at h2 <;> exact ⟨h1, by omega⟩
  cases highbd with
  | false =>
      have h8 := hbd8 rfl
      subst h8
      rw [applySelfguidedPx_false_eq]
      have hp := pack8_range ((xqd0 * (finalFilterPx src 8
              (sgr_params.getD eps ⟨2, 12, 1, 4⟩).e1
              (sgr_params.getD eps ⟨2, 12, 1, 4⟩).r1 i j
            - src (i + 3) (j + 3) * 2 ^ SGRPROJ_RST_BITS)
          + ((2 ^ SGRPROJ_PRJ_BITS : ℤ) - xqd0 - xqd1)
            * (finalFilterPx src 8
                (sgr_params.getD eps ⟨2, 12, 1, 4⟩).e2
                (sgr_params.getD eps ⟨2, 12, 1, 4⟩).r2 i j
              - src (i + 3) (j + 3) * 2 ^ SGRPROJ_RST_BITS)
          + src (i + 3) (j + 3) * 2 ^ SGRPROJ_RST_BITS * 2 ^ SGRPROJ_PRJ_BITS
          + roundForShift (SGRPROJ_PRJ_BITS + SGRPROJ_RST_BITS))
          / 2 ^ (SGRPROJ_PRJ_BITS + SGRPROJ_RST_BITS))
      refine ⟨hp.1, hp.2.trans (by norm_num)⟩
  | true =>
      rw [applySelfguidedPx_true_eq]
      have hc1 : (2 : ℤ) ^ SGRPROJ_RST_BITS = 16 := by decide
      have hc2 : (2 : ℤ) ^ SGRPROJ_PRJ_BITS = 128 := by decide
      have hc3 : roundForShift (SGRPROJ_PRJ_BITS + SGRPROJ_RST_BITS)
          = 1024 := by decide
      have hc4 : (2 : ℤ) ^ (SGRPROJ_PRJ_BITS + SGRPROJ_RST_BITS) = 2048 := by
        decide
      rw [hc1, hc2, hc3, hc4]
      obtain ⟨hf1l, hf1u⟩ := finalFilterPx_range src bit_depth
        (sgr_params.getD eps ⟨2, 12, 1, 4⟩).e1
        (sgr_params.getD eps ⟨2, 12, 1, 4⟩).r1 i j hsrc4095
      obtain ⟨hf2l, hf2u⟩ := finalFilterPx_range src bit_depth
        (sgr_params.getD eps ⟨2, 12, 1, 4⟩).e2
        (sgr_params.getD eps ⟨2, 12, 1, 4⟩).r2 i j hsrc4095
      obtain ⟨hu0, hu1⟩ := hsrc4095 (i + 3) (j + 3)
      have hxq0l : (-96 : ℤ) ≤ xqd0 := by
        have := hx0
        unfold SGRPROJ_PRJ_MIN0 at this
        omega
      have hxq0u : xqd0 ≤ 31 := by
        have := hx0'
        unfold SGRPROJ_PRJ_MAX0 at this
        omega
      have hq1l : (2 : ℤ) ≤ 128 - xqd0 - xqd1 := by
        have g1 := hx1'
        unfold SGRPROJ_PRJ_MAX1 at g1
        omega
      have hq1u : (128 : ℤ) - xqd0 - xqd1 ≤ 256 := by
        have g1 := hx1
        unfold SGRPROJ_PRJ_MIN1 at g1
        omega
      have hF1l : (-65520 : ℤ) ≤ finalFilterPx src bit_depth
          (sgr_params.getD eps ⟨2, 12, 1, 4⟩).e1
          (sgr_params.getD eps ⟨2, 12, 1, 4⟩).r1 i j
            - src (i + 3) (j + 3) * 16 := by omega
      have hF1u : finalFilterPx src bit_depth
          (sgr_params.getD eps ⟨2, 12, 1, 4⟩).e1
          (sgr_params.getD eps ⟨2, 12, 1, 4⟩).r1 i j
            - src (i + 3) (j + 3) * 16 ≤ 130800 := by omega
      have hF2l : (-65520 : ℤ) ≤ finalFilterPx src bit_depth
          (sgr_params.getD eps ⟨2, 12, 1, 4⟩).e2
          (sgr_params.getD eps ⟨2, 12, 1, 4⟩).r2 i j
            - src (i + 3) (j + 3) * 16 := by omega
      have hF2u : finalFilterPx src bit_depth
          (sgr_params.getD eps ⟨2, 12, 1, 4⟩).e2
          (sgr_params.getD eps ⟨2, 12, 1, 4⟩).r2 i j
            - src (i + 3) (j + 3) * 16 ≤ 130800 := by omega
      have hA : xqd0 * (finalFilterPx src bit_depth
          (sgr_params.getD eps ⟨2, 12, 1, 4⟩).e1
          (sgr_params.getD eps ⟨2, 12, 1, 4⟩).r1 i j
            - src (i + 3) (j + 3) * 16) ≤ 6289920 := by
        rcases le_or_lt xqd0 0 with hx | hx
        · rcases le_or_lt (finalFilterPx src bit_depth
              (sgr_params.getD eps ⟨2, 12, 1, 4⟩).e1
              (sgr_params.getD eps ⟨2, 12, 1, 4⟩).r1 i j
                - src (i + 3) (j + 3) * 16) 0 with hf | hf
          · have h1 := mul_le_mul_of_nonpos_right hxq0l hf
            nlinarith
          · have h1 : xqd0 * (finalFilterPx src bit_depth
                (sgr_params.getD eps ⟨2, 12, 1, 4⟩).e1
                (sgr_params.getD eps ⟨2, 12, 1, 4⟩).r1 i j
                  - src (i + 3) (j + 3) * 16) ≤ 0 :=
              mul_nonpos_iff.mpr (Or.inr ⟨hx, le_of_lt hf⟩)
            linarith
        · have h1 := mul_le_mul_of_nonneg_left hF1u (le_of_lt hx)
          nlinarith
      have hB : (128 - xqd0 - xqd1) * (finalFilterPx src bit_depth
          (sgr_params.getD eps ⟨2, 12, 1, 4⟩).e2
          (sgr_params.getD eps ⟨2, 12, 1, 4⟩).r2 i j
            - src (i + 3) (j + 3) * 16) ≤ 33484800 := by
        have h1 := mul_le_mul_of_nonneg_left hF2u (by linarith : (0 : ℤ) ≤
          128 - xqd0 - xqd1)
        nlinarith
      have hw : (xqd0 * (finalFilterPx src bit_depth
              (sgr_params.getD eps ⟨2, 12, 1, 4⟩).e1
              (sgr_params.getD eps ⟨2, 12, 1, 4⟩).r1 i j
            - src (i + 3) (j + 3) * 16)
          + (128 - xqd0 - xqd1)
            * (finalFilterPx src bit_depth
                (sgr_params.getD eps ⟨2, 12, 1, 4⟩).e2
                (sgr_params.getD eps ⟨2, 12, 1, 4⟩).r2 i j
              - src (i + 3) (j + 3) * 16)
          + src (i + 3) (j + 3) * 16 * 128 + 1024) / 2048 ≤ 32767 := by
        calc (xqd0 * (finalFilterPx src bit_depth
              (sgr_params.getD eps ⟨2, 12, 1, 4⟩).e1
              (sgr_params.getD eps ⟨2, 12, 1, 4⟩).r1 i j
            - src (i + 3) (j + 3) * 16)
          + (128 - xqd0 - xqd1)
            * (finalFilterPx src bit_depth
                (sgr_params.getD eps ⟨2, 12, 1, 4⟩).e2
                (sgr_params.getD eps ⟨2, 12, 1, 4⟩).r2 i j
              - src (i + 3) (j + 3) * 16)
          + src (i + 3) (j + 3) * 16 * 128 + 1024) / 2048
            ≤ 48162304 / 2048 := by
              apply Int.ediv_le_ediv (by norm_num)
              omega
          _ ≤ 32767 := by norm_num
      refine packHighbd_range _ _ hw ?_ ?_
      · rcases hbd with rfl | rfl | rfl <;> norm_num
      · rcases hbd with rfl | rfl | rfl <;> norm_num

theorem C6_output_range_witness :
    0 ≤ applySelfguidedPx (fun _ _ => (0 : ℤ)) 12 true 0 0 0 0 0 ∧
    applySelfguidedPx (fun _ _ => (0 : ℤ)) 12 true 0 0 0 0 0
      ≤ 2 ^ 12 - 1 :=
  C6_output_range (fun _ _ => (0 : ℤ)) 12 true 0 0 0 0 0
    (by norm_num) (by intro h; cases h) (fun _ _ => ⟨le_refl 0, by norm_num⟩)
    (by decide) (by decide) (by decide) (by decide)
